import Mathlib

/-!
Verification of the columnar wire codec of `clickhouse-arrow` against its
specification.  The Rust sources are shallowly embedded: byte streams are
`List Nat` (each element a byte value), machine integers are `Nat` with
explicit reductions modulo `2 ^ w` where overflow is observable, and
fallible code returns `Except Err` or `Option`.
-/

namespace ClickHouseArrow

/-- Error kinds of the library (`src/clickhouse-arrow/src/errors.rs`), restricted to
the variants the codec paths raise.  `panicked` models a Rust panic (out-of-bounds
slice index or a failed `assert_eq!`), which is not an `Error` value in the source
but an abort; we keep it as a distinguished outcome. -/
inductive Err where
  | protocol (msg : String)
  | serializeErr (msg : String)
  | deserializeErr (msg : String)
  | unimplemented (msg : String)
  | ioErr (msg : String)
  | panicked
  deriving DecidableEq, Repr

deriving instance DecidableEq for Except

/-! ## Varint codec (`src/clickhouse-arrow/src/simd.rs`) -/

/-- Loop body of `decode_varint`'s multi-byte path:
`for (i, &byte) in buf.iter().enumerate().skip(1).take(9)`.
`taken` is the remaining budget of the `take(9)` adaptor, `i` the enumerate
index. `result |= u64::from(byte & 0x7F) << shift` is a `u64` shift, so
shifted-out bits are discarded: we reduce the shifted addend modulo `2 ^ 64`. -/
def decodeVarintLoop : List Nat → Nat → Nat → Nat → Nat → Option (Nat × Nat)
  | _, _, _, _, 0 => none
  | [], _, _, _, _ => none
  | b :: rest, result, shift, i, taken + 1 =>
    let result1 := result ||| ((b &&& 0x7F) <<< shift % 2 ^ 64)
    if b < 0x80 then some (result1, i + 1)
    else decodeVarintLoop rest result1 (shift + 7) (i + 1) taken

/-- `decode_varint` (`simd.rs:234-257`): decode a varint from a byte slice,
returning `(value, bytes_consumed)`, or `none` when the buffer is empty or no
terminating byte occurs within the 10-byte limit. -/
def decode_varint (buf : List Nat) : Option (Nat × Nat) :=
  match buf with
  | [] => none
  | b :: rest =>
    if b < 0x80 then some (b, 1)
    else decodeVarintLoop rest (b &&& 0x7F) 7 1 9

/-- Loop of `encode_varint` (`simd.rs:217-230`).  The source writes into a
`[u8; MAX_VARINT_LEN]` buffer; the loop runs at most 10 times for any `u64`
input, so we give it fuel `10` in the wrapper.  `(value as u8) | 0x80` is
`v % 256 ||| 0x80`. -/
def encodeVarintGo : Nat → Nat → List Nat
  | 0, _ => []
  | fuel + 1, v =>
    if v < 0x80 then [v]
    else (v % 256 ||| 0x80) :: encodeVarintGo fuel (v >>> 7)

/-- `encode_varint` (`simd.rs:217-230`) as the list of bytes written. -/
def encode_varint (v : Nat) : List Nat := encodeVarintGo 10 v

/-- A byte list that is one complete LEB128 varint: nonempty, all bytes in
range, every byte but the last carries the continuation bit, the last does
not.  (Spec §4.1 / §6: "Varint (LEB128): standard unsigned".) -/
def IsLeb128 (bs : List Nat) : Prop :=
  bs ≠ [] ∧ (∀ b ∈ bs, b < 256) ∧
    (∀ i < bs.length - 1, 0x80 ≤ bs.getD i 0) ∧ bs.getD (bs.length - 1) 0 < 0x80

instance : DecidablePred IsLeb128 := fun bs => by
  unfold IsLeb128; infer_instance

/-- The unsigned value denoted by a LEB128 byte list: 7 payload bits per
byte, least-significant group first. -/
def lebValue (bs : List Nat) : Nat :=
  bs.foldr (fun b acc => (b &&& 0x7F) + 128 * acc) 0

theorem lebValue_lt (bs : List Nat) : lebValue bs < 2 ^ (7 * bs.length) := by
  induction bs with
  | nil => simp [lebValue]
  | cons b t ih =>
    have hb : b &&& 0x7F ≤ 127 := Nat.and_le_right
    have : lebValue (b :: t) = (b &&& 0x7F) + 128 * lebValue t := rfl
    rw [this]
    have h2 : 128 * lebValue t ≤ 128 * (2 ^ (7 * t.length) - 1) :=
      Nat.mul_le_mul_left _ (Nat.le_sub_one_of_lt ih)
    have hpos : 1 ≤ 2 ^ (7 * t.length) := Nat.one_le_two_pow
    have : (b &&& 0x7F) + 128 * lebValue t ≤ 127 + (128 * 2 ^ (7 * t.length) - 128) := by
      omega
    have hlen : 7 * (b :: t).length = 7 * t.length + 7 := by
      simp [List.length_cons]; ring
    rw [hlen, pow_add]
    omega

theorem decodeVarintLoop_none (taken : Nat) :
    ∀ (rest : List Nat) (result shift i : Nat),
      taken ≤ rest.length → (∀ j < taken, 0x80 ≤ rest.getD j 0) →
      decodeVarintLoop rest result shift i taken = none := by
  induction taken with
  | zero => intro rest result shift i _ _; cases rest <;> rfl
  | succ t ih =>
    intro rest result shift i hlen hbig
    match rest with
    | [] => simp at hlen
    | b :: rest' =>
      have hb : 0x80 ≤ b := by
        have := hbig 0 (Nat.succ_pos t); simpa using this
      show decodeVarintLoop (b :: rest') result shift i (t + 1) = none
      unfold decodeVarintLoop
      simp only [if_neg (by omega : ¬ b < 0x80)]
      exact ih rest' _ _ _ (by simpa using hlen)
        (fun j hj => by have := hbig (j + 1) (by omega); simpa using this)

/-- C9: `decode_varint` rejects every complete LEB128 varint denoting a value
of at least `2 ^ 70`: such a varint necessarily spans at least 11 bytes, so
its first ten bytes all carry the continuation bit and the decoder's
`take(9)` loop runs out without finding a terminator, returning `None`. -/
theorem decode_varint_rejects_ge_two_pow_70 (bs : List Nat)
    (hwf : IsLeb128 bs) (hval : 2 ^ 70 ≤ lebValue bs) :
    decode_varint bs = none := by
  obtain ⟨hne, _hrange, hcont, _hlast⟩ := hwf
  have hlt := lebValue_lt bs
  have hlen : 11 ≤ bs.length := by
    by_contra h
    push_neg at h
    have : 2 ^ (7 * bs.length) ≤ 2 ^ 70 :=
      Nat.pow_le_pow_right (by norm_num) (by omega)
    omega
  match bs, hne with
  | b :: rest, _ =>
    have hb : 0x80 ≤ b := by
      have := hcont 0 (by simp at hlen ⊢; omega)
      simpa using this
    show decode_varint (b :: rest) = none
    unfold decode_varint
    simp only [if_neg (by omega : ¬ b < 0x80)]
    refine decodeVarintLoop_none 9 rest _ _ _ (by simp at hlen ⊢; omega) ?_
    intro j hj
    have := hcont (j + 1) (by simp at hlen ⊢; omega)
    simpa using this

theorem decode_varint_rejects_witness :
    IsLeb128 [0x80, 0x80, 0x80, 0x80, 0x80, 0x80, 0x80, 0x80, 0x80, 0x80, 0x01] ∧
      2 ^ 70 ≤ lebValue [0x80, 0x80, 0x80, 0x80, 0x80, 0x80, 0x80, 0x80, 0x80, 0x80, 0x01] ∧
      decode_varint [0x80, 0x80, 0x80, 0x80, 0x80, 0x80, 0x80, 0x80, 0x80, 0x80, 0x01] = none :=
  ⟨by decide, by decide,
    decode_varint_rejects_ge_two_pow_70 _ (by decide) (by decide)⟩

/-! ## Little-endian primitives

`to_le_bytes` / `read_u32_le` / `read_u64_le` from the Rust standard library
and tokio, used by the frame codec.  A byte stream is a `List Nat`. -/

/-- `k` little-endian bytes of `v` (so `leBytes 4 v = (v as u32).to_le_bytes()`
when `v < 2 ^ 32`; higher bits are discarded exactly as the integer cast does). -/
def leBytes : Nat → Nat → List Nat
  | 0, _ => []
  | k + 1, v => v % 256 :: leBytes k (v / 256)

/-- `u32::to_le_bytes` of `v % 2 ^ 32`. -/
def u32le (v : Nat) : List Nat := leBytes 4 v

/-- `u64::to_le_bytes` of `v % 2 ^ 64`. -/
def u64le (v : Nat) : List Nat := leBytes 8 v

/-- Value of a little-endian byte list. -/
def leVal (bs : List Nat) : Nat := bs.foldr (fun b acc => b + 256 * acc) 0

/-- `read_exact` into a buffer of `n` bytes: yields the bytes and the rest of
the stream, or `none` (an io error in the source) when the stream is short. -/
def readExact (n : Nat) (bs : List Nat) : Option (List Nat × List Nat) :=
  if n ≤ bs.length then some (bs.take n, bs.drop n) else none

/-- `read_u8`. -/
def readU8 : List Nat → Option (Nat × List Nat)
  | [] => none
  | b :: rest => some (b, rest)

/-- `read_u32_le`. -/
def readU32le (bs : List Nat) : Option (Nat × List Nat) :=
  (readExact 4 bs).map fun p => (leVal p.1, p.2)

/-- `read_u64_le`. -/
def readU64le (bs : List Nat) : Option (Nat × List Nat) :=
  (readExact 8 bs).map fun p => (leVal p.1, p.2)

@[simp] theorem leBytes_length (k v : Nat) : (leBytes k v).length = k := by
  induction k generalizing v with
  | zero => rfl
  | succ k ih => simp [leBytes, ih]

theorem leVal_leBytes (k v : Nat) : leVal (leBytes k v) = v % 256 ^ k := by
  induction k generalizing v with
  | zero => simp [leBytes, leVal, Nat.mod_one]
  | succ k ih =>
    have : leVal (leBytes (k + 1) v) = v % 256 + 256 * leVal (leBytes k (v / 256)) := rfl
    rw [this, ih, pow_succ, mul_comm (256 ^ k) 256, Nat.mod_mul]

theorem readExact_append (xs rest : List Nat) :
    readExact xs.length (xs ++ rest) = some (xs, rest) := by
  unfold readExact
  rw [if_pos (by simp)]
  simp

theorem readU64le_append (v : Nat) (rest : List Nat) :
    readU64le (u64le v ++ rest) = some (v % 2 ^ 64, rest) := by
  unfold readU64le u64le
  have h := readExact_append (leBytes 8 v) rest
  rw [leBytes_length] at h
  rw [h]
  simp [leVal_leBytes]

theorem readU32le_append (v : Nat) (rest : List Nat) :
    readU32le (u32le v ++ rest) = some (v % 2 ^ 32, rest) := by
  unfold readU32le u32le
  have h := readExact_append (leBytes 4 v) rest
  rw [leBytes_length] at h
  rw [h]
  simp [leVal_leBytes]

/-- Recomposing a 128-bit value from its two 64-bit halves, as
`(u128::from(high) << 64) | u128::from(low)` does. -/
theorem recompose_halves (h : Nat) : (h >>> 64) <<< 64 ||| h % 2 ^ 64 = h := by
  apply Nat.eq_of_testBit_eq
  intro i
  simp only [Nat.testBit_or, Nat.testBit_shiftLeft, Nat.testBit_shiftRight,
    Nat.testBit_mod_two_pow, ge_iff_le]
  by_cases hi : i < 64
  · simp [hi, (by omega : ¬ 64 ≤ i)]
  · have he : 64 + (i - 64) = i := by omega
    simp [hi, (by omega : 64 ≤ i), he]

/-! ## Frame codec (`src/clickhouse-arrow/src/compression.rs`) -/

/-- Modelled from the spec: `CompressionMethod` lives in
`src/clickhouse-arrow/src/native/protocol.rs`, which is not among the provided
sources; spec §3 fixes the variants and their wire bytes
(`NONE = 0x02`, `LZ4 = 0x82`, `ZSTD = 0x90`). -/
inductive CompressionMethod where
  | None
  | LZ4
  | ZSTD
  deriving DecidableEq, Repr

/-- Modelled from the spec: the wire byte of each method (spec §3 / §6). -/
def CompressionMethod.byte : CompressionMethod → Nat
  | .None => 0x02
  | .LZ4 => 0x82
  | .ZSTD => 0x90

/-- The external compression libraries (`lz4_flex`, `zstd`), abstracted:
`lz4_flex::compress` is total, `zstd::bulk::compress(_, 1)` and both
`decompress(_, size)` calls are fallible. -/
structure Codecs where
  lz4Compress : List Nat → List Nat
  lz4Decompress : List Nat → Nat → Except String (List Nat)
  zstdCompress : List Nat → Except String (List Nat)
  zstdDecompress : List Nat → Nat → Except String (List Nat)

/-- The 9-byte header plus payload over which the checksum is computed
(`new_out` in the source): method byte, `u32_le(out.len() as u32 + 9)`,
`u32_le(decompressed_size as u32)`, payload. -/
def frameBody (methodByte : Nat) (out : List Nat) (decompressedSize : Nat) : List Nat :=
  methodByte :: u32le ((out.length % 2 ^ 32 + 9) % 2 ^ 32) ++
    u32le (decompressedSize % 2 ^ 32) ++ out

/-- The full on-wire frame: CityHash-128 halves (high then low, each
little-endian u64) followed by the frame body.  `city` abstracts
`cityhash_rs::cityhash_102_128`, reduced to its `u128` range. -/
def assembleFrame (city : List Nat → Nat) (methodByte : Nat) (out : List Nat)
    (decompressedSize : Nat) : List Nat :=
  let new_out := frameBody methodByte out decompressedSize
  let hash := city new_out % 2 ^ 128
  u64le (hash >>> 64 % 2 ^ 64) ++ u64le (hash % 2 ^ 64) ++ new_out

/-- `compress_data` (`compression.rs:25-53`) as the byte list written to the
writer.  The `CompressionMethod::None` arm returns `Ok(())` without writing,
hence the empty list. -/
def compress_data (city : List Nat → Nat) (codecs : Codecs)
    (raw : List Nat) (compression : CompressionMethod) : Except Err (List Nat) :=
  match compression with
  | CompressionMethod.ZSTD =>
    match codecs.zstdCompress raw with
    | Except.error e => Except.error (Err.serializeErr ("ZSTD compress error: " ++ e))
    | Except.ok out =>
      Except.ok (assembleFrame city CompressionMethod.ZSTD.byte out raw.length)
  | CompressionMethod.LZ4 =>
    Except.ok (assembleFrame city CompressionMethod.LZ4.byte (codecs.lz4Compress raw) raw.length)
  | CompressionMethod.None => Except.ok []

/-- Hex digit character. -/
def hexDigit (d : Nat) : Char :=
  if d < 10 then Char.ofNat (48 + d) else Char.ofNat (87 + d)

/-- `{v:032x}`: 32 zero-padded lowercase hex digits of a `u128` value. -/
def hex128 (v : Nat) : String :=
  String.mk (((List.range 32).map fun i => hexDigit (v / 16 ^ (31 - i) % 16)))

/-- The checksum-mismatch message of `decompress_data_async`
(`compression.rs:175-177`). -/
def mismatchMsg (expected got : Nat) : String :=
  "Checksum mismatch: expected " ++ hex128 expected ++ ", got " ++ hex128 got

/-- `decompress_data_async` (`compression.rs:122-194`): read one frame from
the stream and decompress it.  Returns the decompressed payload and the rest
of the stream.  Error-message interpolations of the underlying io errors are
elided.  The source allocates `vec![0u8; compressed_size]` and slices
`compressed[9..]` without checking `compressed_size >= 9`; when
`compressed_size < 9` that slice index is out of range and the program
panics, modelled by `Err.panicked`. -/
def decompress_data (city : List Nat → Nat) (codecs : Codecs)
    (compression : CompressionMethod) (input : List Nat) :
    Except Err (List Nat × List Nat) :=
  match readU64le input with
  | none => Except.error (Err.protocol "Failed to read checksum high")
  | some (checksum_high, r1) =>
  match readU64le r1 with
  | none => Except.error (Err.protocol "Failed to read checksum low")
  | some (checksum_low, r2) =>
  let checksum := checksum_high <<< 64 ||| checksum_low
  match readU8 r2 with
  | none => Except.error (Err.protocol "Failed to read compression type")
  | some (type_byte, r3) =>
  if type_byte ≠ compression.byte then
    Except.error (Err.protocol "Unexpected compression algorithm")
  else
  match readU32le r3 with
  | none => Except.error (Err.protocol "Failed to read compressed size")
  | some (compressed_size, r4) =>
  match readU32le r4 with
  | none => Except.error (Err.protocol "Failed to read decompressed size")
  | some (decompressed_size, r5) =>
  if compressed_size > 100000000 ∨ decompressed_size > 1000000000 then
    Except.error (Err.protocol "Chunk size too large")
  else
  if compressed_size < 9 then Except.error Err.panicked
  else
  match readExact (compressed_size - 9) r5 with
  | none => Except.error (Err.protocol "Failed to read compressed payload")
  | some (payload, r6) =>
  let compressed := type_byte :: (u32le compressed_size ++ u32le decompressed_size ++ payload)
  let calc_checksum := city compressed % 2 ^ 128
  if calc_checksum ≠ checksum then
    Except.error (Err.protocol (mismatchMsg checksum calc_checksum))
  else
    match compression with
    | CompressionMethod.LZ4 =>
      match codecs.lz4Decompress payload decompressed_size with
      | Except.ok d => Except.ok (d, r6)
      | Except.error e => Except.error (Err.deserializeErr ("LZ4 decompress error: " ++ e))
    | CompressionMethod.ZSTD =>
      match codecs.zstdDecompress payload decompressed_size with
      | Except.ok d => Except.ok (d, r6)
      | Except.error e => Except.error (Err.deserializeErr ("ZSTD decompress error: " ++ e))
    | CompressionMethod.None =>
      Except.error (Err.deserializeErr "Attempted to decompress uncompressed data")

/-- The codec dispatch at the end of `decompress_data_async`
(`compression.rs:181-193`), factored out for use in lemma statements. -/
def decompressTail (codecs : Codecs) (compression : CompressionMethod)
    (payload : List Nat) (decompressed_size : Nat) (rest : List Nat) :
    Except Err (List Nat × List Nat) :=
  match compression with
  | CompressionMethod.LZ4 =>
    match codecs.lz4Decompress payload decompressed_size with
    | Except.ok d => Except.ok (d, rest)
    | Except.error e => Except.error (Err.deserializeErr ("LZ4 decompress error: " ++ e))
  | CompressionMethod.ZSTD =>
    match codecs.zstdDecompress payload decompressed_size with
    | Except.ok d => Except.ok (d, rest)
    | Except.error e => Except.error (Err.deserializeErr ("ZSTD decompress error: " ++ e))
  | CompressionMethod.None =>
    Except.error (Err.deserializeErr "Attempted to decompress uncompressed data")

/-- Decoding a well-formed frame reaches the checksum comparison with the
parsed header fields, then either fails with the mismatch message or
dispatches to the codec. -/
theorem decompress_structured (city : List Nat → Nat) (codecs : Codecs)
    (compression : CompressionMethod) (hi lo cs ds : Nat) (payload rest : List Nat)
    (hhi : hi < 2 ^ 64) (hlo : lo < 2 ^ 64)
    (hcs1 : cs ≤ 100000000) (hds : ds ≤ 1000000000) (hcs9 : 9 ≤ cs)
    (hplen : payload.length = cs - 9) :
    decompress_data city codecs compression
        (u64le hi ++ u64le lo ++ compression.byte :: u32le cs ++ u32le ds ++ payload ++ rest) =
      if city (compression.byte :: (u32le cs ++ u32le ds ++ payload)) % 2 ^ 128 ≠
          (hi <<< 64 ||| lo) then
        Except.error (Err.protocol (mismatchMsg (hi <<< 64 ||| lo)
          (city (compression.byte :: (u32le cs ++ u32le ds ++ payload)) % 2 ^ 128)))
      else decompressTail codecs compression payload ds rest := by
  have hcs32 : cs < 2 ^ 32 := lt_of_le_of_lt hcs1 (by norm_num)
  have hds32 : ds < 2 ^ 32 := lt_of_le_of_lt hds (by norm_num)
  have hre := readExact_append payload rest
  rw [hplen] at hre
  simp only [decompress_data, List.append_assoc, List.cons_append, readU64le_append,
    Nat.mod_eq_of_lt hhi, Nat.mod_eq_of_lt hlo, readU8, readU32le_append,
    Nat.mod_eq_of_lt hcs32, Nat.mod_eq_of_lt hds32, hre, decompressTail, ne_eq]
  rw [if_neg (by simp), if_neg (by omega), if_neg (by omega)]

/-- C1: frame round-trip.  For a payload `raw` and method LZ4 or ZSTD whose
(abstract) compression library round-trips on `raw`, and whose sizes fit the
frame limits, `compress_data` produces on-wire bytes that
`decompress_data_async` with the same expected method decodes back to exactly
`raw`, consuming the whole frame. -/
theorem compress_decompress_roundtrip (city : List Nat → Nat) (codecs : Codecs)
    (compression : CompressionMethod) (raw out : List Nat)
    (hmethod :
      (compression = CompressionMethod.LZ4 ∧ codecs.lz4Compress raw = out ∧
        codecs.lz4Decompress out raw.length = Except.ok raw) ∨
      (compression = CompressionMethod.ZSTD ∧ codecs.zstdCompress raw = Except.ok out ∧
        codecs.zstdDecompress out raw.length = Except.ok raw))
    (hcs : out.length + 9 ≤ 100000000) (hds : raw.length ≤ 1000000000) :
    ∃ wire, compress_data city codecs raw compression = Except.ok wire ∧
      decompress_data city codecs compression wire = Except.ok (raw, []) := by
  have hout32 : out.length % 2 ^ 32 = out.length := Nat.mod_eq_of_lt (by omega)
  have hsum32 : (out.length + 9) % 2 ^ 32 = out.length + 9 := Nat.mod_eq_of_lt (by omega)
  have hds32 : raw.length % 2 ^ 32 = raw.length := Nat.mod_eq_of_lt (by omega)
  have hbody : ∀ mb, frameBody mb out raw.length =
      mb :: (u32le (out.length + 9) ++ u32le raw.length ++ out) := by
    intro mb; unfold frameBody; rw [hout32, hsum32, hds32]; simp
  have hmain : ∀ mb, mb = compression.byte →
      decompress_data city codecs compression
        (assembleFrame city mb out raw.length) =
      decompressTail codecs compression out raw.length [] := by
    intro mb hmb
    set h := city (frameBody mb out raw.length) % 2 ^ 128 with hh
    have hlt : h < 2 ^ 128 := Nat.mod_lt _ (by norm_num)
    have hhi64 : h >>> 64 < 2 ^ 64 := by
      rw [Nat.shiftRight_eq_div_pow]
      apply Nat.div_lt_of_lt_mul
      calc h < 2 ^ 128 := hlt
        _ = 2 ^ 64 * 2 ^ 64 := by norm_num
    have harg : assembleFrame city mb out raw.length =
        u64le (h >>> 64) ++ u64le (h % 2 ^ 64) ++ compression.byte ::
          u32le (out.length + 9) ++ u32le raw.length ++ out ++ [] := by
      simp only [assembleFrame]
      rw [← hh, Nat.mod_eq_of_lt hhi64, hbody, hmb]
      simp [List.append_assoc]
    rw [harg, decompress_structured city codecs compression (h >>> 64) (h % 2 ^ 64)
      (out.length + 9) raw.length out [] hhi64 (Nat.mod_lt _ (by norm_num)) hcs hds
      (by omega) (by simp)]
    have hcond : city (compression.byte ::
        (u32le (out.length + 9) ++ u32le raw.length ++ out)) % 2 ^ 128 =
        (h >>> 64) <<< 64 ||| h % 2 ^ 64 := by
      rw [recompose_halves, ← hmb, ← hbody, hh]
    rw [if_neg (by simp only [ne_eq, not_not]; exact hcond)]
  rcases hmethod with ⟨hc, hco, hdec⟩ | ⟨hc, hco, hdec⟩
  · refine ⟨assembleFrame city CompressionMethod.LZ4.byte out raw.length, ?_, ?_⟩
    · simp [compress_data, hc, hco]
    · rw [hc] at hmain ⊢
      rw [hmain CompressionMethod.LZ4.byte rfl]
      simp [decompressTail, hdec]
  · refine ⟨assembleFrame city CompressionMethod.ZSTD.byte out raw.length, ?_, ?_⟩
    · simp [compress_data, hc, hco]
    · rw [hc] at hmain ⊢
      rw [hmain CompressionMethod.ZSTD.byte rfl]
      simp [decompressTail, hdec]

/-! ## Single-bit corruption of the checksum field (claim C6 apparatus) -/

/-- Flip bit `k` of a byte stream: XOR byte `k / 8` with `1 << (k % 8)`. -/
def flipBitInWire (wire : List Nat) (k : Nat) : List Nat :=
  wire.set (k / 8) (wire.getD (k / 8) 0 ^^^ 1 <<< (k % 8))

theorem getElem_eq_getD (l : List Nat) (i : Nat) (h : i < l.length) : l[i] = l.getD i 0 := by
  simp [List.getD_eq_getElem?_getD, List.getElem?_eq_getElem h]

theorem getD_append_left (xs ys : List Nat) (i : Nat) (h : i < xs.length) :
    (xs ++ ys).getD i 0 = xs.getD i 0 := by
  simp [List.getD_eq_getElem?_getD, List.getElem?_append_left h]

theorem getD_append_right (xs ys : List Nat) (i : Nat) (h : xs.length ≤ i) :
    (xs ++ ys).getD i 0 = ys.getD (i - xs.length) 0 := by
  simp [List.getD_eq_getElem?_getD, List.getElem?_append_right h]

theorem pow256_eq (j : Nat) : (256 : Nat) ^ j = 2 ^ (8 * j) := by
  rw [show (256 : Nat) = 2 ^ 8 by norm_num, ← pow_mul]

theorem leBytes_getD (k : Nat) :
    ∀ (v i : Nat), i < k → (leBytes k v).getD i 0 = v / 256 ^ i % 256 := by
  induction k with
  | zero => intro v i h; omega
  | succ k ih =>
    intro v i h
    match i with
    | 0 => simp [leBytes]
    | i + 1 =>
      have := ih (v / 256) i (by omega)
      simp only [leBytes, List.getD_cons_succ, this]
      rw [Nat.div_div_eq_div_mul, pow_succ, mul_comm (256 ^ i) 256, mul_comm 256 (256 ^ i)]

theorem testBit_byteAt (x m t : Nat) :
    (x / 2 ^ m % 2 ^ 8).testBit t = (decide (t < 8) && x.testBit (m + t)) := by
  rw [Nat.testBit_mod_two_pow, ← Nat.shiftRight_eq_div_pow, Nat.testBit_shiftRight]

/-- XOR-ing a single bit into a value changes exactly the touched byte of its
little-endian byte decomposition. -/
theorem byte_xor_two_pow (v i j b : Nat) (hb : b < 8) :
    (v ^^^ 2 ^ (8 * j + b)) / 256 ^ i % 256 =
      if i = j then v / 256 ^ i % 256 ^^^ 2 ^ b else v / 256 ^ i % 256 := by
  have h256 : (256 : Nat) = 2 ^ 8 := by norm_num
  apply Nat.eq_of_testBit_eq
  intro t
  by_cases hij : i = j
  · subst hij
    rw [if_pos rfl, pow256_eq, h256]
    simp only [Nat.testBit_xor, testBit_byteAt, Nat.testBit_two_pow]
    by_cases ht : t < 8
    · have hiff : (8 * i + b = 8 * i + t) ↔ (b = t) := by omega
      simp [ht, hiff]
    · have hbt : ¬ b = t := by omega
      simp [ht, hbt]
  · rw [if_neg hij, pow256_eq, h256]
    simp only [Nat.testBit_xor, testBit_byteAt, Nat.testBit_two_pow]
    by_cases ht : t < 8
    · have : ¬ 8 * j + b = 8 * i + t := by omega
      simp [ht, this]
    · simp [ht]

/-- Flipping bit `b` of byte `j` of the 8-byte little-endian encoding of a
`u64` yields the encoding of the value with bit `8 * j + b` flipped. -/
theorem u64le_set_flip (v j b : Nat) (hj : j < 8) (hb : b < 8) :
    (u64le v).set j ((u64le v).getD j 0 ^^^ 1 <<< b) = u64le (v ^^^ 2 ^ (8 * j + b)) := by
  apply List.ext_getElem (by simp [u64le])
  intro i h1 h2
  have hi : i < 8 := by simpa [u64le] using h2
  rw [List.getElem_set, getElem_eq_getD _ _ h2]
  unfold u64le
  rw [leBytes_getD 8 (v ^^^ 2 ^ (8 * j + b)) i hi, byte_xor_two_pow v i j b hb]
  by_cases hij : j = i
  · subst hij
    rw [if_pos rfl, if_pos rfl, leBytes_getD 8 v j hj, Nat.one_shiftLeft]
  · have hji : ¬ i = j := fun h => hij h.symm
    rw [if_neg hij, if_neg hji,
      getElem_eq_getD _ _ (by simp [leBytes_length]; exact hi), leBytes_getD 8 v i hi]

theorem flipBit_u64_here (v k : Nat) (hk : k < 64) :
    flipBitInWire (u64le v) k = u64le (v ^^^ 2 ^ k) := by
  unfold flipBitInWire
  have h := u64le_set_flip v (k / 8) (k % 8) (by omega) (by omega)
  rw [Nat.div_add_mod] at h
  exact h

theorem flipBit_u64_append (v : Nat) (ys : List Nat) (k : Nat) (hk : k < 64) :
    flipBitInWire (u64le v ++ ys) k = flipBitInWire (u64le v) k ++ ys := by
  unfold flipBitInWire
  have h : k / 8 < (u64le v).length := by simp [u64le]; omega
  rw [List.set_append_left _ _ h, getD_append_left _ _ _ h]

theorem flipBit_u64_skip (v : Nat) (ys : List Nat) (k : Nat) (hk : 64 ≤ k) :
    flipBitInWire (u64le v ++ ys) k = u64le v ++ flipBitInWire ys (k - 64) := by
  unfold flipBitInWire
  have h8 : (u64le v).length = 8 := by simp [u64le]
  have hge : ¬ k / 8 < (u64le v).length := by rw [h8]; omega
  rw [List.set_append, if_neg hge, getD_append_right _ _ _ (by omega), h8]
  have hdiv : k / 8 - 8 = (k - 64) / 8 := by omega
  have hmod : k % 8 = (k - 64) % 8 := by omega
  rw [hdiv, hmod]

theorem xor_lt_two_pow {x y n : Nat} (hx : x < 2 ^ n) (hy : y < 2 ^ n) :
    x ^^^ y < 2 ^ n := by
  apply Nat.lt_pow_two_of_testBit
  intro i hi
  rw [Nat.testBit_xor, Nat.testBit_lt_two_pow (lt_of_lt_of_le hx (Nat.pow_le_pow_right (by norm_num) hi)),
    Nat.testBit_lt_two_pow (lt_of_lt_of_le hy (Nat.pow_le_pow_right (by norm_num) hi))]
  rfl

theorem stored_flip_high_ne (hi lo m : Nat) (hlo : lo < 2 ^ 64) (hm : m < 64) :
    (hi ^^^ 2 ^ m) <<< 64 ||| lo ≠ hi <<< 64 ||| lo := by
  intro heq
  have h1 := congrArg (fun x => Nat.testBit x (64 + m)) heq
  have hlo2 : lo.testBit (64 + m) = false :=
    Nat.testBit_lt_two_pow (lt_of_lt_of_le hlo (Nat.pow_le_pow_right (by norm_num) (by omega)))
  have e1 : 64 + m - 64 = m := by omega
  have e2 : 64 ≤ 64 + m := by omega
  simp only [Nat.testBit_or, Nat.testBit_shiftLeft, Nat.testBit_xor, Nat.testBit_two_pow,
    hlo2, e1, ge_iff_le, Bool.or_false] at h1
  simp [e2] at h1

theorem stored_flip_low_ne (hi lo m : Nat) (hm : m < 64) :
    hi <<< 64 ||| (lo ^^^ 2 ^ m) ≠ hi <<< 64 ||| lo := by
  intro heq
  have h1 := congrArg (fun x => Nat.testBit x m) heq
  have hsh : (hi <<< 64).testBit m = false := by
    rw [Nat.testBit_shiftLeft]
    have hd : decide (m ≥ 64) = false := by simp [ge_iff_le]; omega
    rw [hd, Bool.false_and]
  simp only [Nat.testBit_or, hsh, Bool.false_or, Nat.testBit_xor,
    Nat.testBit_two_pow] at h1
  simp at h1

theorem frameBody_eq (mb : Nat) (out : List Nat) (ds : Nat)
    (hcs : out.length + 9 ≤ 100000000) (hds : ds ≤ 1000000000) :
    frameBody mb out ds = mb :: (u32le (out.length + 9) ++ u32le ds ++ out) := by
  unfold frameBody
  rw [Nat.mod_eq_of_lt (show out.length < 2 ^ 32 by omega),
    Nat.mod_eq_of_lt (show out.length + 9 < 2 ^ 32 by omega),
    Nat.mod_eq_of_lt (show ds < 2 ^ 32 by omega)]
  simp

theorem assembleFrame_structured (city : List Nat → Nat) (mb : Nat) (out : List Nat) (ds : Nat)
    (hcs : out.length + 9 ≤ 100000000) (hds : ds ≤ 1000000000) :
    assembleFrame city mb out ds =
      u64le ((city (frameBody mb out ds) % 2 ^ 128) >>> 64) ++
        (u64le (city (frameBody mb out ds) % 2 ^ 128 % 2 ^ 64) ++
          (mb :: (u32le (out.length + 9) ++ (u32le ds ++ out)))) := by
  have hlt : city (frameBody mb out ds) % 2 ^ 128 < 2 ^ 128 := Nat.mod_lt _ (by norm_num)
  have hhi64 : (city (frameBody mb out ds) % 2 ^ 128) >>> 64 < 2 ^ 64 := by
    rw [Nat.shiftRight_eq_div_pow]
    omega
  simp only [assembleFrame]
  rw [Nat.mod_eq_of_lt hhi64, frameBody_eq mb out ds hcs hds]
  simp [List.append_assoc]

/-- C6: checksum-mismatch detection.  First part: whenever the stored 128-bit
checksum of an otherwise well-formed frame differs from the CityHash-128
recomputed over the rebuilt 9-byte-header-plus-payload buffer, decode fails
with a `Protocol` error whose message is exactly
`"Checksum mismatch: expected <stored:032x>, got <computed:032x>"`.
Second part: flipping any single bit `k < 128` of the 16-byte checksum field
of a frame produced by `compress_data` makes decode fail with that error. -/
theorem checksum_mismatch_detected :
    (∀ (city : List Nat → Nat) (codecs : Codecs) (compression : CompressionMethod)
        (hi lo cs ds : Nat) (payload rest : List Nat),
        hi < 2 ^ 64 → lo < 2 ^ 64 → cs ≤ 100000000 → ds ≤ 1000000000 → 9 ≤ cs →
        payload.length = cs - 9 →
        city (compression.byte :: (u32le cs ++ u32le ds ++ payload)) % 2 ^ 128 ≠
          (hi <<< 64 ||| lo) →
        decompress_data city codecs compression
            (u64le hi ++ u64le lo ++ compression.byte :: u32le cs ++ u32le ds ++
              payload ++ rest) =
          Except.error (Err.protocol (mismatchMsg (hi <<< 64 ||| lo)
            (city (compression.byte :: (u32le cs ++ u32le ds ++ payload)) % 2 ^ 128)))) ∧
    (∀ (city : List Nat → Nat) (codecs : Codecs) (compression : CompressionMethod)
        (raw out : List Nat) (k : Nat),
        ((compression = CompressionMethod.LZ4 ∧ codecs.lz4Compress raw = out) ∨
          (compression = CompressionMethod.ZSTD ∧ codecs.zstdCompress raw = Except.ok out)) →
        out.length + 9 ≤ 100000000 → raw.length ≤ 1000000000 → k < 128 →
        ∃ wire stored,
          compress_data city codecs raw compression = Except.ok wire ∧
          stored ≠ city (frameBody compression.byte out raw.length) % 2 ^ 128 ∧
          decompress_data city codecs compression (flipBitInWire wire k) =
            Except.error (Err.protocol (mismatchMsg stored
              (city (frameBody compression.byte out raw.length) % 2 ^ 128)))) := by
  constructor
  · intro city codecs compression hi lo cs ds payload rest hhi hlo hcs hds hcs9 hplen hne
    rw [decompress_structured city codecs compression hi lo cs ds payload rest
      hhi hlo hcs hds hcs9 hplen, if_pos hne]
  · intro city codecs compression raw out k hmethod hcs hds hk
    have hcomp : compress_data city codecs raw compression =
        Except.ok (assembleFrame city compression.byte out raw.length) := by
      rcases hmethod with ⟨hc, hco⟩ | ⟨hc, hco⟩ <;> subst hc <;> simp [compress_data, hco]
    set h := city (frameBody compression.byte out raw.length) % 2 ^ 128 with hh
    have hlt : h < 2 ^ 128 := Nat.mod_lt _ (by norm_num)
    have hhi64 : h >>> 64 < 2 ^ 64 := by rw [Nat.shiftRight_eq_div_pow]; omega
    have hlo64 : h % 2 ^ 64 < 2 ^ 64 := Nat.mod_lt _ (by norm_num)
    have hframe := assembleFrame_structured city compression.byte out raw.length hcs hds
    rw [← hh] at hframe
    have hbufcity :
        city (compression.byte :: (u32le (out.length + 9) ++ (u32le raw.length ++ out))) %
          2 ^ 128 = h := by
      rw [hh, frameBody_eq _ _ _ hcs hds, ← List.append_assoc]
    by_cases hk64 : k < 64
    · refine ⟨assembleFrame city compression.byte out raw.length,
        ((h >>> 64) ^^^ 2 ^ k) <<< 64 ||| h % 2 ^ 64, hcomp, ?_, ?_⟩
      · have hne := stored_flip_high_ne (h >>> 64) (h % 2 ^ 64) k hlo64 hk64
        rw [recompose_halves] at hne
        exact hne
      · rw [hframe, flipBit_u64_append _ _ _ hk64, flipBit_u64_here _ _ hk64]
        have hD := decompress_structured city codecs compression ((h >>> 64) ^^^ 2 ^ k)
          (h % 2 ^ 64) (out.length + 9) raw.length out []
          (xor_lt_two_pow hhi64 (Nat.pow_lt_pow_right (by norm_num) hk64)) hlo64
          hcs hds (by omega) (by simp)
        simp only [List.append_assoc, List.cons_append, List.append_nil] at hD
        rw [hD, if_pos]
        rw [hbufcity]
        have hne := stored_flip_high_ne (h >>> 64) (h % 2 ^ 64) k hlo64 hk64
        rw [recompose_halves] at hne
        exact fun hcontra => hne (hbufcity ▸ hcontra).symm
    · have hk2 : 64 ≤ k := by omega
      have hk3 : k - 64 < 64 := by omega
      refine ⟨assembleFrame city compression.byte out raw.length,
        (h >>> 64) <<< 64 ||| ((h % 2 ^ 64) ^^^ 2 ^ (k - 64)), hcomp, ?_, ?_⟩
      · have hne := stored_flip_low_ne (h >>> 64) (h % 2 ^ 64) (k - 64) hk3
        rw [recompose_halves] at hne
        exact hne
      · rw [hframe, flipBit_u64_skip _ _ _ hk2, flipBit_u64_append _ _ _ hk3,
          flipBit_u64_here _ _ hk3]
        have hD := decompress_structured city codecs compression (h >>> 64)
          ((h % 2 ^ 64) ^^^ 2 ^ (k - 64)) (out.length + 9) raw.length out []
          hhi64 (xor_lt_two_pow hlo64 (Nat.pow_lt_pow_right (by norm_num) hk3))
          hcs hds (by omega) (by simp)
        simp only [List.append_assoc, List.cons_append, List.append_nil] at hD
        rw [hD, if_pos]
        rw [hbufcity]
        have hne := stored_flip_low_ne (h >>> 64) (h % 2 ^ 64) (k - 64) hk3
        rw [recompose_halves] at hne
        exact fun hcontra => hne (hbufcity ▸ hcontra).symm

/-- Trivial instantiation of the abstract compression libraries, used to
discharge witnesses at concrete inputs: compression is the identity. -/
def idCodecs : Codecs where
  lz4Compress := fun l => l
  lz4Decompress := fun l _ => Except.ok l
  zstdCompress := fun l => Except.ok l
  zstdDecompress := fun l _ => Except.ok l

theorem compress_decompress_roundtrip_witness :
    ∃ wire, compress_data (fun _ => 0) idCodecs [1, 2, 3] CompressionMethod.LZ4 =
        Except.ok wire ∧
      decompress_data (fun _ => 0) idCodecs CompressionMethod.LZ4 wire =
        Except.ok ([1, 2, 3], []) :=
  compress_decompress_roundtrip (fun _ => 0) idCodecs CompressionMethod.LZ4 [1, 2, 3] [1, 2, 3]
    (Or.inl ⟨rfl, rfl, rfl⟩) (by norm_num) (by norm_num)

theorem checksum_mismatch_detected_witness :
    (decompress_data (fun _ => 1) idCodecs CompressionMethod.LZ4
        (u64le 0 ++ u64le 0 ++ CompressionMethod.LZ4.byte :: u32le 9 ++ u32le 0 ++
          ([] : List Nat) ++ ([] : List Nat)) =
      Except.error (Err.protocol (mismatchMsg ((0 : Nat) <<< 64 ||| 0)
        ((fun _ => (1 : Nat)) (CompressionMethod.LZ4.byte ::
          (u32le 9 ++ u32le 0 ++ ([] : List Nat))) % 2 ^ 128)))) ∧
    (∃ wire stored,
      compress_data (fun _ => 0) idCodecs [1, 2, 3] CompressionMethod.LZ4 =
        Except.ok wire ∧
      stored ≠ (fun _ => (0 : Nat))
        (frameBody CompressionMethod.LZ4.byte [1, 2, 3] ([1, 2, 3] : List Nat).length) %
          2 ^ 128 ∧
      decompress_data (fun _ => 0) idCodecs CompressionMethod.LZ4 (flipBitInWire wire 5) =
        Except.error (Err.protocol (mismatchMsg stored
          ((fun _ => (0 : Nat)) (frameBody CompressionMethod.LZ4.byte [1, 2, 3]
            ([1, 2, 3] : List Nat).length) % 2 ^ 128)))) :=
  ⟨checksum_mismatch_detected.1 (fun _ => 1) idCodecs CompressionMethod.LZ4 0 0 9 0 [] []
      (by norm_num) (by norm_num) (by norm_num) (by norm_num) (by norm_num) rfl (by decide),
    checksum_mismatch_detected.2 (fun _ => 0) idCodecs CompressionMethod.LZ4 [1, 2, 3] [1, 2, 3]
      5 (Or.inl ⟨rfl, rfl⟩) (by norm_num) (by norm_num) (by norm_num)⟩

/-- The header of C5's failing input: zero checksum, LZ4 method byte,
`compressed_size = 0`, `decompressed_size = 0`. -/
def smallSizeFrame : List Nat :=
  u64le 0 ++ u64le 0 ++ CompressionMethod.LZ4.byte :: u32le 0 ++ u32le 0

/-- C5 (code bug): the decoder checks only the upper bounds
`compressed_size ≤ 100_000_000` and `decompressed_size ≤ 1_000_000_000`, never
`compressed_size ≥ 9`.  On a header with `compressed_size = 0` the source
slices `compressed[9..]` out of a zero-length vector and panics, instead of
returning the protocol error "Chunk size too large" demanded by the spec. -/
theorem decompress_small_compressed_size_panics (city : List Nat → Nat) (codecs : Codecs) :
    decompress_data city codecs CompressionMethod.LZ4 smallSizeFrame =
        Except.error Err.panicked ∧
      (Except.error Err.panicked :
          Except Err (List Nat × List Nat)) ≠
        Except.error (Err.protocol "Chunk size too large") := by
  constructor
  · rfl
  · simp

/-! ## Null-bitmap expansion (`src/clickhouse-arrow/src/simd.rs`) -/

/-- The unrolled 8-assignment body shared by `expand_null_bitmap_scalar`
(`simd.rs:65-76`) and `expand_byte_to_8_unchecked` (`simd.rs:136-149`):
write the inverted bits of `byte` into `output[base .. base+8)`.
An assignment is a `List.set`; a Rust write out of bounds cannot occur under
the functions' preconditions (`set` out of range is a no-op). -/
def expandByteInto (byte : Nat) (output : List Nat) (base : Nat) : List Nat :=
  (((((((output.set base (if byte &&& 0x01 = 0 then 1 else 0)).set
    (base + 1) (if byte &&& 0x02 = 0 then 1 else 0)).set
    (base + 2) (if byte &&& 0x04 = 0 then 1 else 0)).set
    (base + 3) (if byte &&& 0x08 = 0 then 1 else 0)).set
    (base + 4) (if byte &&& 0x10 = 0 then 1 else 0)).set
    (base + 5) (if byte &&& 0x20 = 0 then 1 else 0)).set
    (base + 6) (if byte &&& 0x40 = 0 then 1 else 0)).set
    (base + 7) (if byte &&& 0x80 = 0 then 1 else 0)

/-- The main byte loop of `expand_null_bitmap_scalar`:
`for (byte_idx, &byte) in bitmap.iter().take(full_bytes).enumerate()`,
with `base = byte_idx * 8` carried explicitly. -/
def scalarFull (bytes : List Nat) (output : List Nat) (base : Nat) : List Nat :=
  match bytes with
  | [] => output
  | b :: rest => scalarFull rest (expandByteInto b output base) (base + 8)

/-- The tail loop of `expand_null_bitmap_scalar`:
`for bit in 0..remainder { output[base + bit] = u8::from((byte & (1 << bit)) == 0) }`. -/
def remLoop (byte : Nat) (output : List Nat) (base bit remaining : Nat) : List Nat :=
  match remaining with
  | 0 => output
  | r + 1 =>
    remLoop byte (output.set (base + bit) (if byte &&& 1 <<< bit = 0 then 1 else 0))
      base (bit + 1) r

/-- `expand_null_bitmap_scalar` (`simd.rs:60-86`). -/
def expand_null_bitmap_scalar (bitmap output : List Nat) (len : Nat) : List Nat :=
  let full_bytes := len / 8
  let remainder := len % 8
  let out1 := scalarFull (bitmap.take full_bytes) output 0
  if remainder > 0 then
    let byte := bitmap.getD full_bytes 0
    remLoop byte out1 (full_bytes * 8) 0 remainder
  else out1

/-- The 32-values-per-iteration chunk loop of `expand_null_bitmap_avx2`
(`simd.rs:102-119`): read four bitmap bytes `b0..b3`, expand each to eight
output bytes at `out_idx`, `out_idx + 8`, `out_idx + 16`, `out_idx + 24`.
`scalarFull [b0, b1, b2, b3] output outIdx` unfolds to exactly those four
`expandByteInto` writes with the accumulated offsets. -/
def avxChunks (bitmap : List Nat) (output : List Nat) (outIdx bmOff n : Nat) : List Nat :=
  match n with
  | 0 => output
  | n + 1 =>
    avxChunks bitmap
      (scalarFull [bitmap.getD bmOff 0, bitmap.getD (bmOff + 1) 0,
        bitmap.getD (bmOff + 2) 0, bitmap.getD (bmOff + 3) 0] output outIdx)
      (outIdx + 32) (bmOff + 4) n

/-- `expand_null_bitmap_avx2` (`simd.rs:95-131`): the chunk loop followed by
the scalar pass over the remaining `len - 32 * full_chunks` values, operating
on the tail slices `&bitmap[full_chunks * 4..]`, `&mut output[out_idx..]`
(slice mutation becomes `take ++ f (drop)`). -/
def expand_null_bitmap_avx2 (bitmap output : List Nat) (len : Nat) : List Nat :=
  let full_chunks := len / 32
  let out1 := avxChunks bitmap output 0 0 full_chunks
  let remaining := len - full_chunks * 32
  if remaining > 0 then
    out1.take (full_chunks * 32) ++
      expand_null_bitmap_scalar (bitmap.drop (full_chunks * 4))
        (out1.drop (full_chunks * 32)) remaining
  else out1

/-- `expand_null_bitmap` (`simd.rs:21-56`): target-feature dispatch.  On
x86_64 the AVX2 path runs when AVX2 is available at compile time or detected
at runtime, otherwise the scalar fallback; the flag abstracts that detection.
(The aarch64 NEON path is hardware-intrinsic code and is not modelled.) -/
def expand_null_bitmap (avx2 : Bool) (bitmap output : List Nat) (len : Nat) : List Nat :=
  if avx2 then expand_null_bitmap_avx2 bitmap output len
  else expand_null_bitmap_scalar bitmap output len

theorem getD_set (l : List Nat) (m n a : Nat) :
    (l.set m a).getD n 0 = if m = n ∧ m < l.length then a else l.getD n 0 := by
  induction l generalizing m n with
  | nil => simp
  | cons x xs ih =>
    match m, n with
    | 0, 0 => simp
    | 0, n + 1 => simp [List.set]
    | m + 1, 0 => simp [List.set, (by omega : ¬ (m + 1 = 0))]
    | m + 1, n + 1 =>
      simp only [List.set, List.getD_cons_succ, ih m n, List.length_cons]
      by_cases h : m = n ∧ m < xs.length
      · rw [if_pos h, if_pos (by omega)]
      · rw [if_neg h, if_neg (by omega)]

theorem getD_take (l : List Nat) (n i : Nat) (h : i < n) :
    (l.take n).getD i 0 = l.getD i 0 := by
  induction l generalizing n i with
  | nil => simp
  | cons x xs ih =>
    match n, h with
    | n + 1, _ =>
      match i with
      | 0 => simp
      | i + 1 => simp only [List.take, List.getD_cons_succ]; exact ih n i (by omega)

theorem getD_drop (l : List Nat) (n i : Nat) :
    (l.drop n).getD i 0 = l.getD (n + i) 0 := by
  induction l generalizing n with
  | nil => simp
  | cons x xs ih =>
    match n with
    | 0 => simp
    | n + 1 =>
      show (xs.drop n).getD i 0 = (x :: xs).getD (n + 1 + i) 0
      rw [ih n, show n + 1 + i = (n + i) + 1 by omega, List.getD_cons_succ]

@[simp] theorem expandByteInto_length (byte : Nat) (output : List Nat) (base : Nat) :
    (expandByteInto byte output base).length = output.length := by
  simp [expandByteInto]

theorem scalarFull_length (bytes : List Nat) :
    ∀ (output : List Nat) (base : Nat),
      (scalarFull bytes output base).length = output.length := by
  induction bytes with
  | nil => intro output base; rfl
  | cons b rest ih =>
    intro output base
    show (scalarFull rest (expandByteInto b output base) (base + 8)).length = _
    rw [ih, expandByteInto_length]

theorem remLoop_length (byte : Nat) :
    ∀ (remaining : Nat) (output : List Nat) (base bit : Nat),
      (remLoop byte output base bit remaining).length = output.length := by
  intro remaining
  induction remaining with
  | zero => intro output base bit; rfl
  | succ r ih =>
    intro output base bit
    show (remLoop byte _ base (bit + 1) r).length = _
    rw [ih, List.length_set]

theorem expandByteInto_getD (b : Nat) (output : List Nat) (base j : Nat)
    (hlen : base + 8 ≤ output.length) :
    (expandByteInto b output base).getD j 0 =
      if base ≤ j ∧ j < base + 8 then (if b &&& 1 <<< (j - base) = 0 then 1 else 0)
      else output.getD j 0 := by
  have hcase : j < base ∨ base + 8 ≤ j ∨ j = base ∨ j = base + 1 ∨ j = base + 2 ∨
      j = base + 3 ∨ j = base + 4 ∨ j = base + 5 ∨ j = base + 6 ∨ j = base + 7 := by omega
  simp only [expandByteInto, getD_set, List.length_set]
  rcases hcase with h | h | h | h | h | h | h | h | h | h
  · rw [if_neg (show ¬(base ≤ j ∧ j < base + 8) by omega),
      if_neg (show ¬(base + 7 = j ∧ base + 7 < output.length) by omega),
      if_neg (show ¬(base + 6 = j ∧ base + 6 < output.length) by omega),
      if_neg (show ¬(base + 5 = j ∧ base + 5 < output.length) by omega),
      if_neg (show ¬(base + 4 = j ∧ base + 4 < output.length) by omega),
      if_neg (show ¬(base + 3 = j ∧ base + 3 < output.length) by omega),
      if_neg (show ¬(base + 2 = j ∧ base + 2 < output.length) by omega),
      if_neg (show ¬(base + 1 = j ∧ base + 1 < output.length) by omega),
      if_neg (show ¬(base = j ∧ base < output.length) by omega)]
  · rw [if_neg (show ¬(base ≤ j ∧ j < base + 8) by omega),
      if_neg (show ¬(base + 7 = j ∧ base + 7 < output.length) by omega),
      if_neg (show ¬(base + 6 = j ∧ base + 6 < output.length) by omega),
      if_neg (show ¬(base + 5 = j ∧ base + 5 < output.length) by omega),
      if_neg (show ¬(base + 4 = j ∧ base + 4 < output.length) by omega),
      if_neg (show ¬(base + 3 = j ∧ base + 3 < output.length) by omega),
      if_neg (show ¬(base + 2 = j ∧ base + 2 < output.length) by omega),
      if_neg (show ¬(base + 1 = j ∧ base + 1 < output.length) by omega),
      if_neg (show ¬(base = j ∧ base < output.length) by omega)]
  · rw [if_pos (show base ≤ j ∧ j < base + 8 by omega),
      if_neg (show ¬(base + 7 = j ∧ base + 7 < output.length) by omega),
      if_neg (show ¬(base + 6 = j ∧ base + 6 < output.length) by omega),
      if_neg (show ¬(base + 5 = j ∧ base + 5 < output.length) by omega),
      if_neg (show ¬(base + 4 = j ∧ base + 4 < output.length) by omega),
      if_neg (show ¬(base + 3 = j ∧ base + 3 < output.length) by omega),
      if_neg (show ¬(base + 2 = j ∧ base + 2 < output.length) by omega),
      if_neg (show ¬(base + 1 = j ∧ base + 1 < output.length) by omega),
      if_pos (show base = j ∧ base < output.length by omega),
      show j - base = 0 by omega,
      show (1 <<< 0 : Nat) = 0x01 by norm_num [Nat.one_shiftLeft]]
  · rw [if_pos (show base ≤ j ∧ j < base + 8 by omega),
      if_neg (show ¬(base + 7 = j ∧ base + 7 < output.length) by omega),
      if_neg (show ¬(base + 6 = j ∧ base + 6 < output.length) by omega),
      if_neg (show ¬(base + 5 = j ∧ base + 5 < output.length) by omega),
      if_neg (show ¬(base + 4 = j ∧ base + 4 < output.length) by omega),
      if_neg (show ¬(base + 3 = j ∧ base + 3 < output.length) by omega),
      if_neg (show ¬(base + 2 = j ∧ base + 2 < output.length) by omega),
      if_pos (show base + 1 = j ∧ base + 1 < output.length by omega),
      show j - base = 1 by omega,
      show (1 <<< 1 : Nat) = 0x02 by norm_num [Nat.one_shiftLeft]]
  · rw [if_pos (show base ≤ j ∧ j < base + 8 by omega),
      if_neg (show ¬(base + 7 = j ∧ base + 7 < output.length) by omega),
      if_neg (show ¬(base + 6 = j ∧ base + 6 < output.length) by omega),
      if_neg (show ¬(base + 5 = j ∧ base + 5 < output.length) by omega),
      if_neg (show ¬(base + 4 = j ∧ base + 4 < output.length) by omega),
      if_neg (show ¬(base + 3 = j ∧ base + 3 < output.length) by omega),
      if_pos (show base + 2 = j ∧ base + 2 < output.length by omega),
      show j - base = 2 by omega,
      show (1 <<< 2 : Nat) = 0x04 by norm_num [Nat.one_shiftLeft]]
  · rw [if_pos (show base ≤ j ∧ j < base + 8 by omega),
      if_neg (show ¬(base + 7 = j ∧ base + 7 < output.length) by omega),
      if_neg (show ¬(base + 6 = j ∧ base + 6 < output.length) by omega),
      if_neg (show ¬(base + 5 = j ∧ base + 5 < output.length) by omega),
      if_neg (show ¬(base + 4 = j ∧ base + 4 < output.length) by omega),
      if_pos (show base + 3 = j ∧ base + 3 < output.length by omega),
      show j - base = 3 by omega,
      show (1 <<< 3 : Nat) = 0x08 by norm_num [Nat.one_shiftLeft]]
  · rw [if_pos (show base ≤ j ∧ j < base + 8 by omega),
      if_neg (show ¬(base + 7 = j ∧ base + 7 < output.length) by omega),
      if_neg (show ¬(base + 6 = j ∧ base + 6 < output.length) by omega),
      if_neg (show ¬(base + 5 = j ∧ base + 5 < output.length) by omega),
      if_pos (show base + 4 = j ∧ base + 4 < output.length by omega),
      show j - base = 4 by omega,
      show (1 <<< 4 : Nat) = 0x10 by norm_num [Nat.one_shiftLeft]]
  · rw [if_pos (show base ≤ j ∧ j < base + 8 by omega),
      if_neg (show ¬(base + 7 = j ∧ base + 7 < output.length) by omega),
      if_neg (show ¬(base + 6 = j ∧ base + 6 < output.length) by omega),
      if_pos (show base + 5 = j ∧ base + 5 < output.length by omega),
      show j - base = 5 by omega,
      show (1 <<< 5 : Nat) = 0x20 by norm_num [Nat.one_shiftLeft]]
  · rw [if_pos (show base ≤ j ∧ j < base + 8 by omega),
      if_neg (show ¬(base + 7 = j ∧ base + 7 < output.length) by omega),
      if_pos (show base + 6 = j ∧ base + 6 < output.length by omega),
      show j - base = 6 by omega,
      show (1 <<< 6 : Nat) = 0x40 by norm_num [Nat.one_shiftLeft]]
  · rw [if_pos (show base ≤ j ∧ j < base + 8 by omega),
      if_pos (show base + 7 = j ∧ base + 7 < output.length by omega),
      show j - base = 7 by omega,
      show (1 <<< 7 : Nat) = 0x80 by norm_num [Nat.one_shiftLeft]]

theorem scalarFull_getD (bytes : List Nat) :
    ∀ (output : List Nat) (base j : Nat), base + 8 * bytes.length ≤ output.length →
      (scalarFull bytes output base).getD j 0 =
        if base ≤ j ∧ j < base + 8 * bytes.length then
          (if bytes.getD ((j - base) / 8) 0 &&& 1 <<< ((j - base) % 8) = 0 then 1 else 0)
        else output.getD j 0 := by
  induction bytes with
  | nil =>
    intro output base j hlen
    rw [if_neg (show ¬ (base ≤ j ∧ j < base + 8 * ([] : List Nat).length) by simp)]
    rfl
  | cons b rest ih =>
    intro output base j hlen
    have hlc : (b :: rest).length = rest.length + 1 := by simp
    have hlen8 : base + 8 ≤ output.length := by omega
    show (scalarFull rest (expandByteInto b output base) (base + 8)).getD j 0 = _
    rw [ih (expandByteInto b output base) (base + 8) j
      (by rw [expandByteInto_length]; omega)]
    by_cases h1 : base + 8 ≤ j ∧ j < base + 8 + 8 * rest.length
    · rw [if_pos h1,
        if_pos (show base ≤ j ∧ j < base + 8 * (b :: rest).length by rw [hlc]; omega)]
      have hidx : (j - base) / 8 = (j - (base + 8)) / 8 + 1 := by omega
      have hmod : (j - base) % 8 = (j - (base + 8)) % 8 := by omega
      rw [hidx, hmod, List.getD_cons_succ]
    · rw [if_neg h1, expandByteInto_getD b output base j hlen8]
      by_cases h2 : base ≤ j ∧ j < base + 8
      · rw [if_pos h2,
          if_pos (show base ≤ j ∧ j < base + 8 * (b :: rest).length by rw [hlc]; omega)]
        have hidx : (j - base) / 8 = 0 := by omega
        rw [hidx, List.getD_cons_zero, show (j - base) % 8 = j - base by omega]
      · rw [if_neg h2,
          if_neg (show ¬ (base ≤ j ∧ j < base + 8 * (b :: rest).length) by rw [hlc]; omega)]

theorem remLoop_getD (byte : Nat) :
    ∀ (remaining : Nat) (output : List Nat) (base bit j : Nat),
      base + bit + remaining ≤ output.length →
      (remLoop byte output base bit remaining).getD j 0 =
        if base + bit ≤ j ∧ j < base + bit + remaining then
          (if byte &&& 1 <<< (j - base) = 0 then 1 else 0)
        else output.getD j 0 := by
  intro remaining
  induction remaining with
  | zero =>
    intro output base bit j _
    rw [if_neg (by omega)]
    rfl
  | succ r ih =>
    intro output base bit j hlen
    show (remLoop byte _ base (bit + 1) r).getD j 0 = _
    rw [ih _ base (bit + 1) j (by rw [List.length_set]; omega)]
    by_cases h1 : base + (bit + 1) ≤ j ∧ j < base + (bit + 1) + r
    · rw [if_pos h1,
        if_pos (show base + bit ≤ j ∧ j < base + bit + (r + 1) by omega)]
    · rw [if_neg h1, getD_set]
      by_cases h2 : base + bit = j ∧ base + bit < output.length
      · rw [if_pos h2,
          if_pos (show base + bit ≤ j ∧ j < base + bit + (r + 1) by omega),
          show bit = j - base by omega]
      · rw [if_neg h2,
          if_neg (show ¬ (base + bit ≤ j ∧ j < base + bit + (r + 1)) by omega)]

theorem expand_null_bitmap_scalar_length (bitmap output : List Nat) (len : Nat) :
    (expand_null_bitmap_scalar bitmap output len).length = output.length := by
  unfold expand_null_bitmap_scalar
  by_cases h : len % 8 > 0
  · rw [if_pos h, remLoop_length, scalarFull_length]
  · rw [if_neg h, scalarFull_length]

theorem expand_null_bitmap_scalar_getD (bitmap output : List Nat) (len j : Nat)
    (hout : len ≤ output.length) (hbm : len ≤ 8 * bitmap.length) :
    (expand_null_bitmap_scalar bitmap output len).getD j 0 =
      if j < len then (if bitmap.getD (j / 8) 0 &&& 1 <<< (j % 8) = 0 then 1 else 0)
      else output.getD j 0 := by
  simp only [expand_null_bitmap_scalar]
  have hfb : len / 8 ≤ bitmap.length := by omega
  have htlen : (bitmap.take (len / 8)).length = len / 8 := by
    rw [List.length_take]; omega
  have hsf := scalarFull_getD (bitmap.take (len / 8)) output 0 j
    (by rw [htlen]; omega)
  rw [htlen] at hsf
  simp only [Nat.zero_add, Nat.sub_zero, Nat.zero_le, true_and] at hsf
  by_cases hrem : len % 8 > 0
  · rw [if_pos hrem,
      remLoop_getD (bitmap.getD (len / 8) 0) (len % 8)
        (scalarFull (bitmap.take (len / 8)) output 0) (len / 8 * 8) 0 j
        (by rw [scalarFull_length]; omega),
      hsf]
    by_cases hj1 : len / 8 * 8 + 0 ≤ j ∧ j < len / 8 * 8 + 0 + len % 8
    · rw [if_pos hj1, if_pos (show j < len by omega),
        show j - len / 8 * 8 = j % 8 by omega, show (len / 8 : Nat) = j / 8 by omega]
    · rw [if_neg hj1]
      by_cases hj2 : j < 8 * (len / 8)
      · rw [if_pos hj2, if_pos (show j < len by omega)]
        simp only [getD_take bitmap (len / 8) (j / 8) (by omega)]
      · rw [if_neg hj2, if_neg (show ¬ j < len by omega)]
  · rw [if_neg hrem, hsf]
    by_cases hj2 : j < 8 * (len / 8)
    · rw [if_pos hj2, if_pos (show j < len by omega)]
      simp only [getD_take bitmap (len / 8) (j / 8) (by omega)]
    · rw [if_neg hj2, if_neg (show ¬ j < len by omega)]

theorem avxChunks_length (bitmap : List Nat) :
    ∀ (n : Nat) (output : List Nat) (outIdx bmOff : Nat),
      (avxChunks bitmap output outIdx bmOff n).length = output.length := by
  intro n
  induction n with
  | zero => intro output outIdx bmOff; rfl
  | succ n ih =>
    intro output outIdx bmOff
    simp only [avxChunks]
    rw [ih, scalarFull_length]

theorem scalarFour_getD (b0 b1 b2 b3 : Nat) (output : List Nat) (base j : Nat)
    (hlen : base + 32 ≤ output.length) :
    (scalarFull [b0, b1, b2, b3] output base).getD j 0 =
      if base ≤ j ∧ j < base + 32 then
        (if [b0, b1, b2, b3].getD ((j - base) / 8) 0 &&& 1 <<< ((j - base) % 8) = 0
          then 1 else 0)
      else output.getD j 0 := by
  have h := scalarFull_getD [b0, b1, b2, b3] output base j (by simpa using hlen)
  simpa using h

theorem avxChunks_getD (bitmap : List Nat) :
    ∀ (n : Nat) (output : List Nat) (outIdx bmOff j : Nat),
      outIdx + 32 * n ≤ output.length →
      (avxChunks bitmap output outIdx bmOff n).getD j 0 =
        if outIdx ≤ j ∧ j < outIdx + 32 * n then
          (if bitmap.getD (bmOff + (j - outIdx) / 8) 0 &&& 1 <<< ((j - outIdx) % 8) = 0
            then 1 else 0)
        else output.getD j 0 := by
  intro n
  induction n with
  | zero =>
    intro output outIdx bmOff j hlen
    rw [if_neg (by omega)]
    rfl
  | succ n ih =>
    intro output outIdx bmOff j hlen
    simp only [avxChunks]
    rw [ih _ (outIdx + 32) (bmOff + 4) j (by rw [scalarFull_length]; omega)]
    by_cases h1 : outIdx + 32 ≤ j ∧ j < outIdx + 32 + 32 * n
    · rw [if_pos h1, if_pos (show outIdx ≤ j ∧ j < outIdx + 32 * (n + 1) by omega),
        show bmOff + 4 + (j - (outIdx + 32)) / 8 = bmOff + (j - outIdx) / 8 by omega,
        show (j - (outIdx + 32)) % 8 = (j - outIdx) % 8 by omega]
    · rw [if_neg h1, scalarFour_getD _ _ _ _ output outIdx j (by omega)]
      by_cases h2 : outIdx ≤ j ∧ j < outIdx + 32
      · rw [if_pos h2, if_pos (show outIdx ≤ j ∧ j < outIdx + 32 * (n + 1) by omega)]
        rcases (show (j - outIdx) / 8 = 0 ∨ (j - outIdx) / 8 = 1 ∨ (j - outIdx) / 8 = 2 ∨
            (j - outIdx) / 8 = 3 by omega) with hd | hd | hd | hd <;> rw [hd] <;> simp
      · rw [if_neg h2,
          if_neg (show ¬ (outIdx ≤ j ∧ j < outIdx + 32 * (n + 1)) by omega)]

theorem expand_null_bitmap_avx2_length (bitmap output : List Nat) (len : Nat)
    (hout : len ≤ output.length) :
    (expand_null_bitmap_avx2 bitmap output len).length = output.length := by
  simp only [expand_null_bitmap_avx2]
  by_cases hrem : len - len / 32 * 32 > 0
  · rw [if_pos hrem]
    rw [List.length_append, List.length_take, avxChunks_length,
      expand_null_bitmap_scalar_length, List.length_drop, avxChunks_length]
    omega
  · rw [if_neg hrem, avxChunks_length]

theorem expand_null_bitmap_avx2_getD (bitmap output : List Nat) (len j : Nat)
    (hout : len ≤ output.length) (hbm : len ≤ 8 * bitmap.length) :
    (expand_null_bitmap_avx2 bitmap output len).getD j 0 =
      if j < len then (if bitmap.getD (j / 8) 0 &&& 1 <<< (j % 8) = 0 then 1 else 0)
      else output.getD j 0 := by
  simp only [expand_null_bitmap_avx2]
  have hchunks := avxChunks_getD bitmap (len / 32) output 0 0 j (by omega)
  simp only [Nat.zero_add, Nat.zero_le, true_and, Nat.sub_zero] at hchunks
  have hTL : ((avxChunks bitmap output 0 0 (len / 32)).take (len / 32 * 32)).length =
      len / 32 * 32 := by
    rw [List.length_take, avxChunks_length]; omega
  by_cases hrem : len - len / 32 * 32 > 0
  · rw [if_pos hrem]
    by_cases hj : j < len / 32 * 32
    · rw [getD_append_left _ _ _ (by rw [hTL]; omega),
        getD_take _ _ _ (by omega), hchunks,
        if_pos (show j < 32 * (len / 32) by omega), if_pos (show j < len by omega)]
    · rw [getD_append_right _ _ _ (by rw [hTL]; omega), hTL,
        expand_null_bitmap_scalar_getD (bitmap.drop (len / 32 * 4))
          (List.drop (len / 32 * 32) (avxChunks bitmap output 0 0 (len / 32)))
          (len - len / 32 * 32) (j - len / 32 * 32)
          (by rw [List.length_drop, avxChunks_length]; omega)
          (by rw [List.length_drop]; omega)]
      by_cases hj2 : j - len / 32 * 32 < len - len / 32 * 32
      · rw [if_pos hj2, if_pos (show j < len by omega), getD_drop,
          show len / 32 * 4 + (j - len / 32 * 32) / 8 = j / 8 by omega,
          show (j - len / 32 * 32) % 8 = j % 8 by omega]
      · rw [if_neg hj2, if_neg (show ¬ j < len by omega), getD_drop,
          show len / 32 * 32 + (j - len / 32 * 32) = j by omega, hchunks,
          if_neg (show ¬ j < 32 * (len / 32) by omega)]
  · rw [if_neg hrem, hchunks]
    by_cases hj : j < 32 * (len / 32)
    · rw [if_pos hj, if_pos (show j < len by omega)]
    · rw [if_neg hj, if_neg (show ¬ j < len by omega)]

/-- C7: under the preconditions `out.len ≥ len` and `bits.len ≥ ⌈len/8⌉`,
`expand_null_bitmap` (on either dispatch path) writes `out[i] = 1` exactly
when bit `i` of the bitmap is `0` and `out[i] = 0` when it is `1`, for every
`i < len`, and leaves the buffer length unchanged. -/
theorem expand_null_bitmap_correct (avx2 : Bool) (bitmap output : List Nat) (len : Nat)
    (hout : len ≤ output.length) (hbm : (len + 7) / 8 ≤ bitmap.length) :
    (expand_null_bitmap avx2 bitmap output len).length = output.length ∧
      ∀ i < len, (expand_null_bitmap avx2 bitmap output len).getD i 0 =
        if bitmap.getD (i / 8) 0 &&& 1 <<< (i % 8) = 0 then 1 else 0 := by
  have hbm8 : len ≤ 8 * bitmap.length := by omega
  cases avx2 with
  | false =>
    refine ⟨expand_null_bitmap_scalar_length bitmap output len, ?_⟩
    intro i hi
    show (expand_null_bitmap_scalar bitmap output len).getD i 0 = _
    rw [expand_null_bitmap_scalar_getD bitmap output len i hout hbm8, if_pos hi]
  | true =>
    refine ⟨expand_null_bitmap_avx2_length bitmap output len hout, ?_⟩
    intro i hi
    show (expand_null_bitmap_avx2 bitmap output len).getD i 0 = _
    rw [expand_null_bitmap_avx2_getD bitmap output len i hout hbm8, if_pos hi]

theorem expand_null_bitmap_correct_witness :
    ((8 ≤ (List.replicate 8 0xFF : List Nat).length ∧
        (8 + 7) / 8 ≤ ([0xAA] : List Nat).length) ∧
      (expand_null_bitmap false [0xAA] (List.replicate 8 0xFF) 8).length =
          (List.replicate 8 0xFF : List Nat).length ∧
        ∀ i < 8, (expand_null_bitmap false [0xAA] (List.replicate 8 0xFF) 8).getD i 0 =
          if ([0xAA] : List Nat).getD (i / 8) 0 &&& 1 <<< (i % 8) = 0 then 1 else 0) ∧
      expand_null_bitmap false [0xAA] (List.replicate 8 0xFF) 8 =
        [1, 0, 1, 0, 1, 0, 1, 0] :=
  ⟨⟨by decide,
    expand_null_bitmap_correct false [0xAA] (List.replicate 8 0xFF) 8 (by decide) (by decide)⟩,
    by decide⟩

/-- C8: the AVX2 path (32-per-iteration chunk loop plus scalar tail) computes
exactly the same output buffer as the scalar path, under the dispatch
preconditions. -/
theorem expand_null_bitmap_avx2_eq_scalar (bitmap output : List Nat) (len : Nat)
    (hout : len ≤ output.length) (hbm : (len + 7) / 8 ≤ bitmap.length) :
    expand_null_bitmap_avx2 bitmap output len = expand_null_bitmap_scalar bitmap output len := by
  have hbm8 : len ≤ 8 * bitmap.length := by omega
  apply List.ext_getElem
    (by rw [expand_null_bitmap_avx2_length bitmap output len hout,
      expand_null_bitmap_scalar_length])
  intro i h1 h2
  rw [getElem_eq_getD _ _ h1, getElem_eq_getD _ _ h2,
    expand_null_bitmap_avx2_getD bitmap output len i hout hbm8,
    expand_null_bitmap_scalar_getD bitmap output len i hout hbm8]

theorem expand_null_bitmap_avx2_eq_scalar_witness :
    (33 ≤ (List.replicate 40 7 : List Nat).length ∧
      (33 + 7) / 8 ≤ ([0xAA, 0xBB, 0xCC, 0xDD, 0xEE] : List Nat).length) ∧
      expand_null_bitmap_avx2 [0xAA, 0xBB, 0xCC, 0xDD, 0xEE] (List.replicate 40 7) 33 =
        expand_null_bitmap_scalar [0xAA, 0xBB, 0xCC, 0xDD, 0xEE] (List.replicate 40 7) 33 :=
  ⟨by decide,
    expand_null_bitmap_avx2_eq_scalar [0xAA, 0xBB, 0xCC, 0xDD, 0xEE] (List.replicate 40 7) 33
      (by decide) (by decide)⟩

/-! ## Sparse column codec (`src/clickhouse-arrow/src/native/sparse.rs`) -/

/-- `END_OF_GRANULE_FLAG` (`sparse.rs:21`): bit 62. -/
def END_OF_GRANULE_FLAG : Nat := 1 <<< 62

/-- `!END_OF_GRANULE_FLAG` as a `u64`: all bits except bit 62. -/
def NOT_EOG_MASK : Nat := 2 ^ 64 - 1 - END_OF_GRANULE_FLAG

/-- `SparseDeserializeState` (`sparse.rs:25-30`). -/
structure SparseDeserializeState where
  num_trailing_defaults : Nat
  has_value_after_defaults : Bool
  deriving DecidableEq, Repr

/-- Modelled from the spec: `ClickHouseBytesRead::try_get_var_uint` lives in
`src/clickhouse-arrow/src/io.rs`, which is not among the provided sources.
Spec §4.1/§6 fix its contract — standard unsigned LEB128, max 10 bytes,
`(value, consumed)` or a failure on truncation — which is exactly the
repository's own `decode_varint` (`simd.rs`), so we realise it with that. -/
def try_get_var_uint (bytes : List Nat) : Option (Nat × List Nat) :=
  (decode_varint bytes).map fun p => (p.1, bytes.drop p.2)

/-- The `loop` of `read_sparse_offsets_sync` (`sparse.rs:120-148`).  `cp` is
`current_position : u64` (additions reduced mod `2 ^ 64`), `offsets` the
accumulated positions, `st` the state record.  The loop consumes at least one
byte per iteration, so fuel `bytes.length + 1` (supplied by the wrapper)
never runs out; the fuel-0 branch is an unreachable modelling artifact. -/
def readSparseLoop (fuel : Nat) (bytes : List Nat) (num_rows : Nat) (cp : Nat)
    (offsets : List Nat) (st : SparseDeserializeState) :
    Except Err (List Nat × SparseDeserializeState × List Nat) :=
  match fuel with
  | 0 => Except.error Err.panicked
  | fuel + 1 =>
    match try_get_var_uint bytes with
    | none => Except.error (Err.ioErr "try_get_var_uint: not enough data")
    | some (group_size, rest) =>
      let actual_group_size := group_size &&& NOT_EOG_MASK
      let cp1 := (cp + actual_group_size) % 2 ^ 64
      if group_size &&& END_OF_GRANULE_FLAG ≠ 0 then
        Except.ok (offsets,
          if cp1 > num_rows then { st with num_trailing_defaults := cp1 - num_rows } else st,
          rest)
      else
        if cp1 < num_rows then
          readSparseLoop fuel rest num_rows ((cp1 + 1) % 2 ^ 64) (offsets ++ [cp1]) st
        else
          readSparseLoop fuel rest num_rows cp1 offsets
            { st with has_value_after_defaults := true }

/-- `read_sparse_offsets_sync` (`sparse.rs:95-151`): carry-state prologue
followed by the varint loop.  Returns the positions, the final state, and the
unconsumed rest of the stream.  (`read_sparse_offsets`, the async variant at
`sparse.rs:36-92`, is line-for-line the same logic over an async reader.)
After the prologue both state fields are reset, so the loop always starts
from the empty state. -/
def read_sparse_offsets_sync (bytes : List Nat) (num_rows : Nat)
    (st : SparseDeserializeState) :
    Except Err (List Nat × SparseDeserializeState × List Nat) :=
  let cp0 := if st.num_trailing_defaults > 0 then st.num_trailing_defaults else 0
  if st.has_value_after_defaults then
    readSparseLoop (bytes.length + 1) bytes num_rows ((cp0 + 1) % 2 ^ 64)
      (if cp0 < num_rows then [cp0] else [])
      { num_trailing_defaults := 0, has_value_after_defaults := false }
  else
    readSparseLoop (bytes.length + 1) bytes num_rows cp0 []
      { num_trailing_defaults := 0, has_value_after_defaults := false }

/-- Spec-side instrument for the amended claim C10: `true` iff along the run
of `readSparseLoop` the `u64` position accumulator never overflows (pushes
cannot overflow once `num_rows < 2 ^ 64`). -/
def sparseLoopNoWrap : Nat → List Nat → Nat → Nat → Bool
  | 0, _, _, _ => true
  | fuel + 1, bytes, num_rows, cp =>
    match try_get_var_uint bytes with
    | none => true
    | some (group_size, rest) =>
      let actual := group_size &&& NOT_EOG_MASK
      if cp + actual < 2 ^ 64 then
        if group_size &&& END_OF_GRANULE_FLAG ≠ 0 then true
        else if cp + actual < num_rows then
          sparseLoopNoWrap fuel rest num_rows (cp + actual + 1)
        else sparseLoopNoWrap fuel rest num_rows (cp + actual)
      else false

/-- No-overflow instrument for a whole `read_sparse_offsets_sync` call. -/
def sparseNoWrap (bytes : List Nat) (num_rows : Nat) (st : SparseDeserializeState) : Bool :=
  let cp0 := if st.num_trailing_defaults > 0 then st.num_trailing_defaults else 0
  sparseLoopNoWrap (bytes.length + 1) bytes num_rows
    (if st.has_value_after_defaults then (cp0 + 1) % 2 ^ 64 else cp0)

/-- Spec-side encoder of a granule's offset stream (claims C3/C4 and spec
§3 SparseOffsets): one varint per non-default position holding the count of
defaults since the previous value, a final varint of trailing defaults with
the end-of-granule flag set. -/
def encodeGaps (totalRows : Nat) : List Nat → Nat → List Nat
  | [], prev => encode_varint ((totalRows - prev) ||| END_OF_GRANULE_FLAG)
  | p :: rest, prev => encode_varint (p - prev) ++ encodeGaps totalRows rest (p + 1)

/-- Offset stream of the granule with non-default positions `P` in a block
of `totalRows` rows. -/
def encodeGranule (P : List Nat) (totalRows : Nat) : List Nat := encodeGaps totalRows P 0

theorem split7_shift (w shift : Nat) :
    (w &&& 0x7F) <<< shift ||| (w >>> 7) <<< (shift + 7) = w <<< shift := by
  apply Nat.eq_of_testBit_eq
  intro t
  simp only [Nat.testBit_or, Nat.testBit_shiftLeft, Nat.testBit_shiftRight, Nat.testBit_and,
    ge_iff_le]
  rw [show (0x7F : Nat) = 2 ^ 7 - 1 by norm_num]
  simp only [Nat.testBit_two_pow_sub_one]
  by_cases h1 : shift ≤ t
  · by_cases h2 : t - shift < 7
    · simp only [h1, h2]
      simp
      intro h3
      exact absurd h3 (by omega)
    · have h3 : shift + 7 ≤ t := by omega
      simp [h1, h2, h3, show 7 + (t - (shift + 7)) = t - shift by omega]
  · simp [h1]
    intro h3
    exact absurd h3 (by omega)

theorem shiftLeft_le_of_shiftRight (w shift : Nat) :
    (w >>> 7) <<< (shift + 7) ≤ w <<< shift := by
  rw [Nat.shiftLeft_eq, Nat.shiftLeft_eq, Nat.shiftRight_eq_div_pow, pow_add]
  calc w / 2 ^ 7 * (2 ^ shift * 2 ^ 7) = w / 2 ^ 7 * 2 ^ 7 * 2 ^ shift := by ring
    _ ≤ w * 2 ^ shift := Nat.mul_le_mul_right _ (Nat.div_mul_le_self w (2 ^ 7))

theorem and_shiftLeft_le (w shift : Nat) : (w &&& 0x7F) <<< shift ≤ w <<< shift := by
  rw [Nat.shiftLeft_eq, Nat.shiftLeft_eq]
  exact Nat.mul_le_mul_right _ Nat.and_le_left

theorem not_or80_lt (x : Nat) : ¬ (x ||| 0x80) < 0x80 := by
  intro hcon
  have ht : (x ||| 0x80).testBit 7 = true := by
    rw [Nat.testBit_or]
    simp [show Nat.testBit 0x80 7 = true by decide]
  have := Nat.testBit_implies_ge ht
  norm_num at this
  omega

theorem decodeVarintLoop_encode (n : Nat) :
    ∀ (w res shift i : Nat) (rest : List Nat),
      0 < n → w < 2 ^ (7 * n) → w <<< shift < 2 ^ 64 →
      decodeVarintLoop (encodeVarintGo n w ++ rest) res shift i n =
        some (res ||| w <<< shift, i + (encodeVarintGo n w).length) := by
  induction n with
  | zero => intro w res shift i rest hn _ _; omega
  | succ n ih =>
    intro w res shift i rest _hn hw hsh
    by_cases hsmall : w < 0x80
    · rw [show encodeVarintGo (n + 1) w = [w] from by
        simp only [encodeVarintGo]; rw [if_pos hsmall]]
      show decodeVarintLoop (w :: rest) res shift i (n + 1) = _
      simp only [decodeVarintLoop]
      rw [if_pos hsmall]
      have hand : w &&& 0x7F = w := by
        rw [show (0x7F : Nat) = 2 ^ 7 - 1 by norm_num]
        exact Nat.and_pow_two_sub_one_of_lt_two_pow (by omega)
      rw [hand, Nat.mod_eq_of_lt hsh]
      simp
    · have hn : 0 < n := by
        rcases Nat.eq_zero_or_pos n with h0 | h0
        · subst h0; norm_num at hw; omega
        · exact h0
      rw [show encodeVarintGo (n + 1) w = (w % 256 ||| 0x80) :: encodeVarintGo n (w >>> 7) from
        by simp only [encodeVarintGo]; rw [if_neg hsmall]]
      show decodeVarintLoop ((w % 256 ||| 0x80) :: (encodeVarintGo n (w >>> 7) ++ rest))
          res shift i (n + 1) = _
      simp only [decodeVarintLoop]
      rw [if_neg (not_or80_lt (w % 256))]
      have hpayload : (w % 256 ||| 0x80) &&& 0x7F = w &&& 0x7F := by
        rw [Nat.and_distrib_right, show (0x80 &&& 0x7F : Nat) = 0 by decide,
          Nat.or_zero, show (0x7F : Nat) = 2 ^ 7 - 1 by norm_num,
          Nat.and_pow_two_sub_one_eq_mod, Nat.and_pow_two_sub_one_eq_mod,
          Nat.mod_mod_of_dvd w (by norm_num : (2 ^ 7 : Nat) ∣ 256)]
      have hmodid : (w &&& 0x7F) <<< shift % 2 ^ 64 = (w &&& 0x7F) <<< shift :=
        Nat.mod_eq_of_lt (lt_of_le_of_lt (and_shiftLeft_le w shift) hsh)
      rw [hpayload, hmodid,
        ih (w >>> 7) (res ||| (w &&& 0x7F) <<< shift) (shift + 7) (i + 1) rest hn
          (by rw [Nat.shiftRight_eq_div_pow]
              apply Nat.div_lt_of_lt_mul
              calc w < 2 ^ (7 * (n + 1)) := hw
                _ = 2 ^ (7 * n) * 2 ^ 7 := by rw [← pow_add]; ring_nf
                _ = 2 ^ 7 * 2 ^ (7 * n) := by ring)
          (lt_of_le_of_lt (shiftLeft_le_of_shiftRight w shift) hsh)]
      rw [Nat.or_assoc, split7_shift]
      simp only [List.length_cons]
      rw [show i + 1 + (encodeVarintGo n (w >>> 7)).length =
        i + ((encodeVarintGo n (w >>> 7)).length + 1) by omega]

theorem decode_varint_encode (v : Nat) (rest : List Nat) (hv : v < 2 ^ 64) :
    decode_varint (encode_varint v ++ rest) = some (v, (encode_varint v).length) := by
  by_cases hsmall : v < 0x80
  · rw [show encode_varint v = [v] from by
      unfold encode_varint
      simp only [encodeVarintGo]
      rw [if_pos hsmall]]
    show decode_varint (v :: rest) = _
    simp only [decode_varint]
    rw [if_pos hsmall]
    simp
  · rw [show encode_varint v = (v % 256 ||| 0x80) :: encodeVarintGo 9 (v >>> 7) from by
      unfold encode_varint
      simp only [encodeVarintGo]
      rw [if_neg hsmall]]
    show decode_varint ((v % 256 ||| 0x80) :: (encodeVarintGo 9 (v >>> 7) ++ rest)) = _
    simp only [decode_varint]
    rw [if_neg (not_or80_lt (v % 256))]
    have hpayload : (v % 256 ||| 0x80) &&& 0x7F = v &&& 0x7F := by
      rw [Nat.and_distrib_right, show (0x80 &&& 0x7F : Nat) = 0 by decide,
        Nat.or_zero, show (0x7F : Nat) = 2 ^ 7 - 1 by norm_num,
        Nat.and_pow_two_sub_one_eq_mod, Nat.and_pow_two_sub_one_eq_mod,
        Nat.mod_mod_of_dvd v (by norm_num : (2 ^ 7 : Nat) ∣ 256)]
    rw [hpayload,
      decodeVarintLoop_encode 9 (v >>> 7) (v &&& 0x7F) 7 1 rest (by norm_num)
        (by rw [Nat.shiftRight_eq_div_pow]
            apply Nat.div_lt_of_lt_mul
            calc v < 2 ^ 64 := hv
              _ ≤ 2 ^ 7 * 2 ^ 63 := by norm_num)
        (lt_of_le_of_lt (by
          have := shiftLeft_le_of_shiftRight v 0
          simpa using this) hv)]
    have hval : v &&& 0x7F ||| (v >>> 7) <<< 7 = v := by
      have := split7_shift v 0
      simpa using this
    rw [hval]
    simp [List.length_cons]
    omega

theorem encode_varint_length_pos (v : Nat) : 1 ≤ (encode_varint v).length := by
  unfold encode_varint encodeVarintGo
  by_cases h : v < 0x80
  · rw [if_pos h]; simp
  · rw [if_neg h]; simp

theorem try_get_var_uint_encode (v : Nat) (rest : List Nat) (hv : v < 2 ^ 64) :
    try_get_var_uint (encode_varint v ++ rest) = some (v, rest) := by
  unfold try_get_var_uint
  rw [decode_varint_encode v rest hv]
  simp [List.drop_left]

theorem eog_eq_pow : END_OF_GRANULE_FLAG = 2 ^ 62 := by
  unfold END_OF_GRANULE_FLAG
  rw [Nat.one_shiftLeft]

theorem or_eog_and_ne (x : Nat) : (x ||| END_OF_GRANULE_FLAG) &&& END_OF_GRANULE_FLAG ≠ 0 := by
  rw [eog_eq_pow, Nat.and_two_pow]
  have ht : (x ||| 2 ^ 62).testBit 62 = true := by
    rw [Nat.testBit_or, Nat.testBit_two_pow_self]
    simp
  rw [ht]
  norm_num

theorem and_eog_of_lt (x : Nat) (hx : x < 2 ^ 62) : x &&& END_OF_GRANULE_FLAG = 0 := by
  rw [eog_eq_pow, Nat.and_two_pow, Nat.testBit_lt_two_pow hx]
  simp

theorem mask_decomp : NOT_EOG_MASK = 2 ^ 63 ||| (2 ^ 62 - 1) := by decide

theorem and_mask_of_lt (x : Nat) (hx : x < 2 ^ 62) : x &&& NOT_EOG_MASK = x := by
  rw [mask_decomp]
  apply Nat.eq_of_testBit_eq
  intro t
  rw [Nat.testBit_and, Nat.testBit_or, Nat.testBit_two_pow, Nat.testBit_two_pow_sub_one]
  by_cases ht : t < 62
  · simp [ht]
  · rw [Nat.testBit_lt_two_pow (lt_of_lt_of_le hx (Nat.pow_le_pow_right (by norm_num) (by omega)))]
    simp

theorem or_eog_and_mask (x : Nat) (hx : x < 2 ^ 62) :
    (x ||| END_OF_GRANULE_FLAG) &&& NOT_EOG_MASK = x := by
  rw [mask_decomp, eog_eq_pow]
  apply Nat.eq_of_testBit_eq
  intro t
  rw [Nat.testBit_and, Nat.testBit_or, Nat.testBit_or, Nat.testBit_two_pow,
    Nat.testBit_two_pow, Nat.testBit_two_pow_sub_one]
  by_cases ht : t < 62
  · simp [ht, show ¬ (62 = t) by omega, show ¬ (63 = t) by omega]
  · rw [Nat.testBit_lt_two_pow (lt_of_lt_of_le hx (Nat.pow_le_pow_right (by norm_num) (by omega)))]
    by_cases h62 : 62 = t
    · simp [h62.symm ▸ (by omega : ¬ (63 = t)), ← h62]
    · simp [h62]

theorem or_eog_lt (x : Nat) (hx : x < 2 ^ 62) : x ||| END_OF_GRANULE_FLAG < 2 ^ 64 := by
  rw [eog_eq_pow]
  exact Nat.or_lt_two_pow (lt_trans hx (by norm_num)) (by norm_num)

/-- The sparse loop consumes exactly the varints up to and including the
first one with the end-of-granule bit set. -/
theorem readSparseLoop_consumes (us : List Nat) :
    ∀ (fuel u_last : Nat) (tail : List Nat) (num_rows cp : Nat)
      (offsets : List Nat) (st : SparseDeserializeState),
      us.length + 1 ≤ fuel →
      (∀ u ∈ us, u < 2 ^ 64 ∧ u &&& END_OF_GRANULE_FLAG = 0) →
      u_last < 2 ^ 64 → u_last &&& END_OF_GRANULE_FLAG ≠ 0 →
      ∃ offsets2 st2,
        readSparseLoop fuel ((us.map encode_varint).flatten ++ (encode_varint u_last ++ tail))
          num_rows cp offsets st = Except.ok (offsets2, st2, tail) := by
  induction us with
  | nil =>
    intro fuel u_last tail num_rows cp offsets st hfuel _hus hlast hflag
    match fuel, hfuel with
    | fuel + 1, _ =>
      simp only [List.map_nil, List.flatten_nil, List.nil_append]
      simp only [readSparseLoop, try_get_var_uint_encode u_last tail hlast]
      rw [if_pos hflag]
      exact ⟨offsets, _, rfl⟩
  | cons u us ih =>
    intro fuel u_last tail num_rows cp offsets st hfuel hus hlast hflag
    match fuel, hfuel with
    | fuel + 1, hfuel =>
      have hu := hus u (by simp)
      have hrest : ∀ x ∈ us, x < 2 ^ 64 ∧ x &&& END_OF_GRANULE_FLAG = 0 :=
        fun x hx => hus x (by simp [hx])
      simp only [List.map_cons, List.flatten_cons, List.append_assoc]
      simp only [readSparseLoop, try_get_var_uint_encode u _ hu.1]
      rw [if_neg (by simp [hu.2])]
      by_cases hlt : (cp + (u &&& NOT_EOG_MASK)) % 2 ^ 64 < num_rows
      · rw [if_pos hlt]
        exact ih fuel u_last tail num_rows _ _ st (by simp at hfuel ⊢; omega)
          hrest hlast hflag
      · rw [if_neg hlt]
        exact ih fuel u_last tail num_rows _ _ _ (by simp at hfuel ⊢; omega)
          hrest hlast hflag

theorem join_encode_length_ge (us : List Nat) :
    us.length ≤ ((us.map encode_varint).flatten).length := by
  induction us with
  | nil => simp
  | cons u us ih =>
    simp only [List.map_cons, List.flatten_cons, List.length_append, List.length_cons]
    have := encode_varint_length_pos u
    omega

/-- C4: for every window size and every carry state, `read_sparse_offsets`
consumes exactly the varints of the stream up to and including the first one
with bit 62 set, leaving precisely the bytes after it — even when the
remaining positions fall outside the requested window. -/
theorem read_sparse_offsets_consumes_granule (us : List Nat) (u_last : Nat)
    (tail : List Nat) (num_rows : Nat) (st : SparseDeserializeState)
    (hus : ∀ u ∈ us, u < 2 ^ 64 ∧ u &&& END_OF_GRANULE_FLAG = 0)
    (hlast : u_last < 2 ^ 64) (hflag : u_last &&& END_OF_GRANULE_FLAG ≠ 0) :
    ∃ offsets2 st2,
      read_sparse_offsets_sync ((us.map encode_varint).flatten ++ (encode_varint u_last ++ tail))
        num_rows st = Except.ok (offsets2, st2, tail) := by
  have hfuel : us.length + 1 ≤
      ((us.map encode_varint).flatten ++ (encode_varint u_last ++ tail)).length + 1 := by
    have h1 := join_encode_length_ge us
    have h2 := encode_varint_length_pos u_last
    simp only [List.length_append]
    omega
  unfold read_sparse_offsets_sync
  by_cases hval : st.has_value_after_defaults
  · rw [if_pos hval]
    exact readSparseLoop_consumes us _ u_last tail num_rows _ _ _ hfuel hus hlast hflag
  · rw [if_neg hval]
    exact readSparseLoop_consumes us _ u_last tail num_rows _ _ _ hfuel hus hlast hflag

theorem read_sparse_offsets_consumes_granule_witness :
    (∀ u ∈ ([0] : List Nat), u < 2 ^ 64 ∧ u &&& END_OF_GRANULE_FLAG = 0) ∧
      (3 ||| END_OF_GRANULE_FLAG) < 2 ^ 64 ∧
      (3 ||| END_OF_GRANULE_FLAG) &&& END_OF_GRANULE_FLAG ≠ 0 ∧
      ∃ offsets2 st2,
        read_sparse_offsets_sync
          ((([0] : List Nat).map encode_varint).flatten ++
            (encode_varint (3 ||| END_OF_GRANULE_FLAG) ++ [99, 100]))
          0 ⟨0, false⟩ = Except.ok (offsets2, st2, [99, 100]) :=
  ⟨by decide, by decide, by decide,
    read_sparse_offsets_consumes_granule [0] (3 ||| END_OF_GRANULE_FLAG) [99, 100] 0
      ⟨0, false⟩ (by decide) (by decide) (by decide)⟩

theorem readSparseLoop_granule (P : List Nat) :
    ∀ (totalRows prev fuel : Nat) (acc : List Nat),
      List.Pairwise (· < ·) P → (∀ p ∈ P, prev ≤ p ∧ p < totalRows) →
      prev ≤ totalRows → totalRows < 2 ^ 62 →
      P.length + 1 ≤ fuel →
      readSparseLoop fuel (encodeGaps totalRows P prev) totalRows prev acc ⟨0, false⟩ =
        Except.ok (acc ++ P, ⟨0, false⟩, []) := by
  induction P with
  | nil =>
    intro totalRows prev fuel acc _hs _hm hle hrows hfuel
    match fuel, hfuel with
    | fuel + 1, _ =>
      have ht : totalRows - prev < 2 ^ 62 := by omega
      show readSparseLoop (fuel + 1)
        (encode_varint ((totalRows - prev) ||| END_OF_GRANULE_FLAG)) totalRows prev acc
        ⟨0, false⟩ = _
      have henc : encode_varint ((totalRows - prev) ||| END_OF_GRANULE_FLAG) =
          encode_varint ((totalRows - prev) ||| END_OF_GRANULE_FLAG) ++ [] := by simp
      rw [henc]
      simp only [readSparseLoop,
        try_get_var_uint_encode _ [] (or_eog_lt _ ht)]
      rw [if_pos (or_eog_and_ne (totalRows - prev)), or_eog_and_mask _ ht,
        Nat.mod_eq_of_lt (show prev + (totalRows - prev) < 2 ^ 64 by omega)]
      rw [if_neg (show ¬ prev + (totalRows - prev) > totalRows by omega)]
      simp
  | cons p rest ih =>
    intro totalRows prev fuel acc hs hm hle hrows hfuel
    match fuel, hfuel with
    | fuel + 1, hfuel =>
      have hp := hm p (by simp)
      have hgap : p - prev < 2 ^ 62 := by omega
      show readSparseLoop (fuel + 1)
        (encode_varint (p - prev) ++ encodeGaps totalRows rest (p + 1)) totalRows prev acc
        ⟨0, false⟩ = _
      simp only [readSparseLoop, try_get_var_uint_encode _ _ (by omega : p - prev < 2 ^ 64)]
      rw [if_neg (by simp [and_eog_of_lt _ hgap]), and_mask_of_lt _ hgap,
        Nat.mod_eq_of_lt (show prev + (p - prev) < 2 ^ 64 by omega),
        show prev + (p - prev) = p by omega]
      rw [if_pos hp.2, Nat.mod_eq_of_lt (show p + 1 < 2 ^ 64 by omega)]
      rw [ih totalRows (p + 1) fuel (acc ++ [p]) (List.Pairwise.of_cons hs)
        (fun q hq => ⟨(List.pairwise_cons.mp hs).1 q hq, (hm q (by simp [hq])).2⟩)
        (by omega) hrows (by simp at hfuel ⊢; omega)]
      simp

/-- C3: reading a full granule — the offset stream that encodes the strictly
increasing non-default positions `P` of a `totalRows`-row block — over a
window of exactly `totalRows` rows with an empty carry state returns exactly
`P`, consumes the whole stream, and leaves the carry state empty. -/
theorem read_sparse_offsets_granule (P : List Nat) (totalRows : Nat)
    (hsorted : List.Pairwise (· < ·) P) (hlt : ∀ p ∈ P, p < totalRows)
    (hrows : totalRows < 2 ^ 62) :
    read_sparse_offsets_sync (encodeGranule P totalRows) totalRows ⟨0, false⟩ =
      Except.ok (P, ⟨0, false⟩, []) := by
  have hfuel : P.length + 1 ≤ (encodeGranule P totalRows).length + 1 := by
    unfold encodeGranule
    have : ∀ (Q : List Nat) (prev : Nat), Q.length + 1 ≤ (encodeGaps totalRows Q prev).length := by
      intro Q
      induction Q with
      | nil => intro prev; simpa using encode_varint_length_pos _
      | cons q qs ihq =>
        intro prev
        have h1 := encode_varint_length_pos (q - prev)
        have h2 := ihq (q + 1)
        simp only [encodeGaps, List.length_append, List.length_cons]
        omega
    have := this P 0
    omega
  unfold read_sparse_offsets_sync
  simp only [if_neg (show (0 : Nat) > 0 → False by omega)]
  show readSparseLoop _ _ _ _ _ _ = _
  have := readSparseLoop_granule P totalRows 0 ((encodeGranule P totalRows).length + 1) []
    hsorted (fun p hp => ⟨Nat.zero_le p, hlt p hp⟩) (Nat.zero_le _) hrows hfuel
  simpa [encodeGranule] using this

theorem read_sparse_offsets_granule_witness :
    List.Pairwise (· < ·) [2, 4] ∧ (∀ p ∈ ([2, 4] : List Nat), p < 8) ∧ (8 : Nat) < 2 ^ 62 ∧
      read_sparse_offsets_sync (encodeGranule [2, 4] 8) 8 ⟨0, false⟩ =
        Except.ok ([2, 4], ⟨0, false⟩, []) ∧
      encodeGranule [2, 4] 8 =
        encode_varint 2 ++ encode_varint 1 ++ encode_varint (3 ||| END_OF_GRANULE_FLAG) :=
  ⟨by decide, by decide, by decide,
    read_sparse_offsets_granule [2, 4] 8 (by decide) (by decide) (by decide), by decide⟩

theorem readSparseLoop_lt_num_rows :
    ∀ (fuel : Nat) (bytes : List Nat) (num_rows cp : Nat) (acc offsets : List Nat)
      (st st2 : SparseDeserializeState) (rest : List Nat),
      (∀ a ∈ acc, a < num_rows) →
      readSparseLoop fuel bytes num_rows cp acc st = Except.ok (offsets, st2, rest) →
      ∀ p ∈ offsets, p < num_rows := by
  intro fuel
  induction fuel with
  | zero =>
    intro bytes num_rows cp acc offsets st st2 rest _ hok
    simp [readSparseLoop] at hok
  | succ fuel ih =>
    intro bytes num_rows cp acc offsets st st2 rest hacc hok
    unfold readSparseLoop at hok
    rcases htry : try_get_var_uint bytes with _ | ⟨g, r⟩
    · rw [htry] at hok
      cases hok
    · rw [htry] at hok
      simp only at hok
      by_cases hflag : g &&& END_OF_GRANULE_FLAG ≠ 0
      · rw [if_pos hflag] at hok
        simp only [Except.ok.injEq, Prod.mk.injEq] at hok
        obtain ⟨ho, _, _⟩ := hok
        subst ho
        exact hacc
      · rw [if_neg hflag] at hok
        by_cases hlt : (cp + (g &&& NOT_EOG_MASK)) % 2 ^ 64 < num_rows
        · rw [if_pos hlt] at hok
          refine ih _ _ _ _ _ _ _ _ ?_ hok
          intro a ha
          rcases List.mem_append.mp ha with ha | ha
          · exact hacc a ha
          · simp at ha
            omega
        · rw [if_neg hlt] at hok
          exact ih _ _ _ _ _ _ _ _ hacc hok

theorem readSparseLoop_sorted :
    ∀ (fuel : Nat) (bytes : List Nat) (num_rows cp : Nat) (acc offsets : List Nat)
      (st st2 : SparseDeserializeState) (rest : List Nat),
      num_rows < 2 ^ 64 →
      (∀ a ∈ acc, a < cp) → List.Pairwise (· < ·) acc →
      sparseLoopNoWrap fuel bytes num_rows cp = true →
      readSparseLoop fuel bytes num_rows cp acc st = Except.ok (offsets, st2, rest) →
      List.Pairwise (· < ·) offsets := by
  intro fuel
  induction fuel with
  | zero =>
    intro bytes num_rows cp acc offsets st st2 rest _ _ _ _ hok
    simp [readSparseLoop] at hok
  | succ fuel ih =>
    intro bytes num_rows cp acc offsets st st2 rest hnum hacc hsort hnw hok
    unfold readSparseLoop at hok
    unfold sparseLoopNoWrap at hnw
    rcases htry : try_get_var_uint bytes with _ | ⟨g, r⟩
    · rw [htry] at hok
      cases hok
    · rw [htry] at hok hnw
      simp only at hok hnw
      by_cases hov : cp + (g &&& NOT_EOG_MASK) < 2 ^ 64
      · rw [if_pos hov] at hnw
        rw [Nat.mod_eq_of_lt hov] at hok
        by_cases hflag : g &&& END_OF_GRANULE_FLAG ≠ 0
        · rw [if_pos hflag] at hok
          simp only [Except.ok.injEq, Prod.mk.injEq] at hok
          obtain ⟨ho, _, _⟩ := hok
          subst ho
          exact hsort
        · rw [if_neg hflag] at hok hnw
          by_cases hlt : cp + (g &&& NOT_EOG_MASK) < num_rows
          · rw [if_pos hlt] at hok hnw
            rw [Nat.mod_eq_of_lt (by omega)] at hok
            refine ih _ _ _ _ _ _ _ _ hnum ?_ ?_ hnw hok
            · intro a ha
              rcases List.mem_append.mp ha with ha | ha
              · have := hacc a ha; omega
              · simp at ha; omega
            · rw [List.pairwise_append]
              refine ⟨hsort, by simp, ?_⟩
              intro a ha b hb
              simp at hb
              subst hb
              have := hacc a ha
              omega
          · rw [if_neg hlt] at hok hnw
            refine ih _ _ _ _ _ _ _ _ hnum ?_ hsort hnw hok
            intro a ha
            have := hacc a ha
            omega
      · rw [if_neg hov] at hnw
        cases hnw

/-- C10 (amended): every position returned by `read_sparse_offsets` is below
the requested window size, unconditionally; and the returned position list is
strictly increasing provided the `u64` position accumulator never overflows
during the run (`sparseNoWrap`) and the window size is in `usize` range.
(The Rust types guarantee the latter; the former can genuinely fail, see the
counterexample.) -/
theorem read_sparse_offsets_positions (bytes : List Nat) (num_rows : Nat)
    (st : SparseDeserializeState) (offsets : List Nat) (st2 : SparseDeserializeState)
    (rest : List Nat)
    (hok : read_sparse_offsets_sync bytes num_rows st = Except.ok (offsets, st2, rest)) :
    (∀ p ∈ offsets, p < num_rows) ∧
      (num_rows < 2 ^ 64 → sparseNoWrap bytes num_rows st = true →
        List.Pairwise (· < ·) offsets) := by
  have hcp0 : (if st.num_trailing_defaults > 0 then st.num_trailing_defaults else 0) =
      st.num_trailing_defaults := by
    by_cases h : st.num_trailing_defaults > 0
    · rw [if_pos h]
    · rw [if_neg h]; omega
  unfold read_sparse_offsets_sync at hok
  rw [hcp0] at hok
  by_cases hval : st.has_value_after_defaults
  · rw [if_pos hval] at hok
    constructor
    · refine readSparseLoop_lt_num_rows _ _ _ _ _ _ _ _ _ ?_ hok
      intro a ha
      by_cases h : st.num_trailing_defaults < num_rows
      · rw [if_pos h] at ha
        simp at ha
        omega
      · rw [if_neg h] at ha
        simp at ha
    · intro hnum hnw
      unfold sparseNoWrap at hnw
      simp only [hcp0, hval, if_true] at hnw
      refine readSparseLoop_sorted _ _ _ _ _ _ _ _ _ hnum ?_ ?_ hnw hok
      · intro a ha
        by_cases h : st.num_trailing_defaults < num_rows
        · rw [if_pos h] at ha
          simp at ha
          rw [Nat.mod_eq_of_lt (by omega)]
          omega
        · rw [if_neg h] at ha
          simp at ha
      · by_cases h : st.num_trailing_defaults < num_rows
        · rw [if_pos h]
          simp
        · rw [if_neg h]
          simp
  · rw [if_neg hval] at hok
    constructor
    · exact readSparseLoop_lt_num_rows _ _ _ _ _ _ _ _ _ (by simp) hok
    · intro hnum hnw
      unfold sparseNoWrap at hnw
      simp only [hcp0, hval, if_false] at hnw
      exact readSparseLoop_sorted _ _ _ _ _ _ _ _ _ hnum (by simp) (by simp) hnw hok

theorem read_sparse_offsets_positions_witness :
    read_sparse_offsets_sync (encodeGranule [1, 3] 6) 6 ⟨0, false⟩ =
        Except.ok ([1, 3], ⟨0, false⟩, []) ∧
      ((∀ p ∈ ([1, 3] : List Nat), p < 6) ∧
        ((6 : Nat) < 2 ^ 64 → sparseNoWrap (encodeGranule [1, 3] 6) 6 ⟨0, false⟩ = true →
          List.Pairwise (· < ·) [1, 3])) :=
  ⟨by decide,
    read_sparse_offsets_positions (encodeGranule [1, 3] 6) 6 ⟨0, false⟩ [1, 3] ⟨0, false⟩ []
      (by decide)⟩

/-- The offset stream that wraps the `u64` position accumulator: one
non-default after 5 defaults, then four runs of `2 ^ 62 - 1` defaults (whose
sum overflows `u64`), then end of granule. -/
def wrapBytes : List Nat :=
  encode_varint 5 ++ encode_varint (2 ^ 62 - 1) ++ encode_varint (2 ^ 62 - 1) ++
    encode_varint (2 ^ 62 - 1) ++ encode_varint (2 ^ 62 - 1) ++
    encode_varint END_OF_GRANULE_FLAG

/-- Counterexample to C10 as stated: on `wrapBytes` with an 8-row window the
positions come back as `[5, 2]` — not strictly increasing — because the
`u64` accumulator wraps around. -/
theorem read_sparse_offsets_not_sorted :
    read_sparse_offsets_sync wrapBytes 8 ⟨0, false⟩ =
        Except.ok ([5, 2], ⟨0, true⟩, []) ∧
      ¬ List.Pairwise (· < ·) [5, 2] :=
  ⟨by decide, by decide⟩

/-! ## Sparse array expansion (`src/clickhouse-arrow/src/native/sparse.rs`,
`expand_sparse_array` and the per-type `expand_*` helpers) -/

/-- The Arrow primitive types dispatched to `expand_primitive::<T>` in
`expand_sparse_array`.  The expansion loop never computes on the native
values (it only copies them and appends `T::Native::default()`), so a
single abstract value type suffices for all of them. -/
inductive PrimType
  | int8 | int16 | int32 | int64
  | uint8 | uint16 | uint32 | uint64
  | float32 | float64
  | date32 | date64
  | timestampSecond | timestampMillisecond | timestampMicrosecond | timestampNanosecond
  | decimal128 | decimal256
deriving DecidableEq, Repr

/-- An Arrow `ArrayRef` as seen by `expand_sparse_array`: one list of
optional values per dispatch arm of the `match data_type`.  Primitive
native values are abstracted to `Int` (the loop copies them opaquely;
`T::Native::default()` is the numeric zero).  `unsupported` covers the
catch-all `_` arm and carries the debug-printed type name and the array
length. -/
inductive ArrowArray
  | prim (t : PrimType) (vals : List (Option Int))
  | utf8 (large : Bool) (vals : List (Option String))
  | binary (large : Bool) (vals : List (Option (List Nat)))
  | boolean (vals : List (Option Bool))
  | fixedSizeBinary (size : Nat) (vals : List (Option (List Nat)))
  | unsupported (typeName : String) (k : Nat)
deriving DecidableEq, Repr

/-- `sparse_array.len()`. -/
def ArrowArray.len : ArrowArray → Nat
  | .prim _ vals => vals.length
  | .utf8 _ vals => vals.length
  | .binary _ vals => vals.length
  | .boolean vals => vals.length
  | .fixedSizeBinary _ vals => vals.length
  | .unsupported _ k => k

/-- True exactly on the data types `expand_sparse_array` dispatches to an
`expand_*` helper (everything but the `_` arm). -/
def ArrowArray.isSupported : ArrowArray → Bool
  | .unsupported _ _ => false
  | _ => true

/-- A single row value, for observing expanded arrays uniformly across the
per-type builders. -/
inductive RowValue
  | int (v : Int)
  | str (s : String)
  | bytes (b : List Nat)
  | boolean (b : Bool)
deriving DecidableEq, Repr

/-- Row `i` of an array: `none` models a null slot, `some v` a non-null
value (out-of-range reads also observe as `none`; the theorems only use
in-range indices). -/
def arrGet : ArrowArray → Nat → Option RowValue
  | .prim _ vals, i => (vals.getD i none).map RowValue.int
  | .utf8 _ vals, i => (vals.getD i none).map RowValue.str
  | .binary _ vals, i => (vals.getD i none).map RowValue.bytes
  | .boolean vals, i => (vals.getD i none).map RowValue.boolean
  | .fixedSizeBinary _ vals, i => (vals.getD i none).map RowValue.bytes
  | .unsupported _ _, _ => none

/-- The default row each `expand_*` helper appends on a non-offset
position: `T::Native::default()` (zero) for primitives, `""` for strings,
`b""` for binary, `false` for booleans, `size` zero bytes for
fixed-size binary. -/
def ArrowArray.defaultRow : ArrowArray → RowValue
  | .prim _ _ => .int 0
  | .utf8 _ _ => .str ""
  | .binary _ _ => .bytes []
  | .boolean _ => .boolean false
  | .fixedSizeBinary size _ => .bytes (List.replicate size 0)
  | .unsupported _ _ => .int 0

/-- The row loop shared verbatim by `expand_primitive`, `expand_string`,
`expand_binary`, `expand_boolean` and `expand_fixed_size_binary`:
`for row in 0..total_rows { if offset_idx < offsets.len() &&
offsets[offset_idx] == row { append sparse[offset_idx] (null or value);
offset_idx += 1 } else { append default } }`, here recursing on the
number of remaining rows with the current `row` and `offset_idx`
explicit. -/
def expandRows {α : Type} (vals : List (Option α)) (offsets : List Nat) (dflt : α) :
    Nat → Nat → Nat → List (Option α)
  | _, _, 0 => []
  | row, offIdx, remaining + 1 =>
    if offIdx < offsets.length ∧ offsets.getD offIdx 0 = row then
      vals.getD offIdx none :: expandRows vals offsets dflt (row + 1) (offIdx + 1) remaining
    else
      some dflt :: expandRows vals offsets dflt (row + 1) offIdx remaining

/-- One `expand_*` helper: run the row loop from `row = 0`,
`offset_idx = 0` over `total_rows` rows. -/
def expand_generic {α : Type} (vals : List (Option α)) (offsets : List Nat) (dflt : α)
    (total_rows : Nat) : List (Option α) :=
  expandRows vals offsets dflt 0 0 total_rows

/-- `expand_sparse_array`: `assert_eq!(sparse_array.len(), offsets.len())`
(a panic when violated), then dispatch on the data type; the catch-all
arm returns `Error::Unimplemented` with the formatted type name. -/
def expand_sparse_array (sparse_array : ArrowArray) (offsets : List Nat)
    (total_rows : Nat) : Except Err ArrowArray :=
  if sparse_array.len ≠ offsets.length then Except.error Err.panicked
  else
    match sparse_array with
    | .prim t vals => Except.ok (.prim t (expand_generic vals offsets 0 total_rows))
    | .utf8 large vals => Except.ok (.utf8 large (expand_generic vals offsets "" total_rows))
    | .binary large vals => Except.ok (.binary large (expand_generic vals offsets [] total_rows))
    | .boolean vals => Except.ok (.boolean (expand_generic vals offsets false total_rows))
    | .fixedSizeBinary size vals =>
        Except.ok
          (.fixedSizeBinary size
            (expand_generic vals offsets (List.replicate size 0) total_rows))
    | .unsupported name _ =>
        Except.error
          (Err.unimplemented ("Sparse expansion not implemented for type: " ++ name))

theorem expandRows_length {α : Type} (vals : List (Option α)) (offsets : List Nat)
    (dflt : α) (row offIdx remaining : Nat) :
    (expandRows vals offsets dflt row offIdx remaining).length = remaining := by
  induction remaining generalizing row offIdx with
  | zero => rfl
  | succ m ih =>
    unfold expandRows
    by_cases h : offIdx < offsets.length ∧ offsets.getD offIdx 0 = row
    · rw [if_pos h]; simp [ih]
    · rw [if_neg h]; simp [ih]

theorem getD_eq_get (l : List Nat) (i : Nat) (h : i < l.length) : l.getD i 0 = l[i] := by
  simp [List.getD, List.getElem?_eq_getElem h]

theorem sorted_getD_lt (l : List Nat) (a b : Nat) (hs : List.Pairwise (· < ·) l)
    (hab : a < b) (hb : b < l.length) : l.getD a 0 < l.getD b 0 := by
  rw [getD_eq_get l a (by omega), getD_eq_get l b hb]
  exact List.pairwise_iff_getElem.mp hs a b (by omega) hb hab

/-- Positions not listed in `offsets` receive the default value. -/
theorem expandRows_getD_miss {α : Type} (vals : List (Option α)) (offsets : List Nat)
    (dflt : α) (row offIdx remaining i : Nat) (hi : i < remaining)
    (hmem : (row + i) ∉ offsets) :
    (expandRows vals offsets dflt row offIdx remaining).getD i none = some dflt := by
  induction remaining generalizing row offIdx i with
  | zero => omega
  | succ m ih =>
    unfold expandRows
    by_cases h : offIdx < offsets.length ∧ offsets.getD offIdx 0 = row
    · rw [if_pos h]
      cases i with
      | zero =>
        exfalso
        apply hmem
        have hm : offsets.getD offIdx 0 ∈ offsets := by
          rw [getD_eq_get offsets offIdx h.1]
          exact List.getElem_mem h.1
        rw [h.2] at hm
        simpa using hm
      | succ i' =>
        show (expandRows vals offsets dflt (row + 1) (offIdx + 1) m).getD i' none = some dflt
        exact ih (row + 1) (offIdx + 1) i' (by omega) (by
          rw [show row + 1 + i' = row + (i' + 1) by omega]; exact hmem)
    · rw [if_neg h]
      cases i with
      | zero => rfl
      | succ i' =>
        show (expandRows vals offsets dflt (row + 1) offIdx m).getD i' none = some dflt
        exact ih (row + 1) offIdx i' (by omega) (by
          rw [show row + 1 + i' = row + (i' + 1) by omega]; exact hmem)

/-- A listed position `offsets[j]` receives the sparse value at index `j`,
provided the offsets are strictly increasing and the loop state is
aligned (`row` is a lower bound for every offset not yet consumed). -/
theorem expandRows_getD_hit {α : Type} (vals : List (Option α)) (offsets : List Nat)
    (dflt : α) (row offIdx remaining j : Nat)
    (hsorted : List.Pairwise (· < ·) offsets)
    (hall : ∀ k, offIdx ≤ k → k < offsets.length → row ≤ offsets.getD k 0)
    (hj1 : offIdx ≤ j) (hj2 : j < offsets.length)
    (hlt : offsets.getD j 0 < row + remaining) :
    (expandRows vals offsets dflt row offIdx remaining).getD
        (offsets.getD j 0 - row) none =
      vals.getD j none := by
  induction remaining generalizing row offIdx with
  | zero =>
    exfalso
    have := hall j hj1 hj2
    omega
  | succ m ih =>
    unfold expandRows
    by_cases h : offIdx < offsets.length ∧ offsets.getD offIdx 0 = row
    · rw [if_pos h]
      by_cases hje : j = offIdx
      · subst hje
        rw [h.2, Nat.sub_self]
        rfl
      · have hjgt : offIdx < j := by omega
        have hgt : offsets.getD offIdx 0 < offsets.getD j 0 :=
          sorted_getD_lt offsets offIdx j hsorted hjgt hj2
        have hidx : offsets.getD j 0 - row = (offsets.getD j 0 - (row + 1)) + 1 := by omega
        rw [hidx]
        show (expandRows vals offsets dflt (row + 1) (offIdx + 1) m).getD
            (offsets.getD j 0 - (row + 1)) none = vals.getD j none
        refine ih (row + 1) (offIdx + 1) ?_ (by omega) (by omega)
        intro k hk1 hk2
        have := sorted_getD_lt offsets offIdx k hsorted (by omega) hk2
        omega
    · rw [if_neg h]
      have hoff : offIdx < offsets.length := by omega
      have hne : offsets.getD offIdx 0 ≠ row := by
        intro hc; exact h ⟨hoff, hc⟩
      have hge : row < offsets.getD offIdx 0 := by
        have := hall offIdx (by omega) hoff
        omega
      have hjge : row < offsets.getD j 0 := by
        by_cases hje : j = offIdx
        · subst hje; omega
        · have := sorted_getD_lt offsets offIdx j hsorted (by omega) hj2
          omega
      have hidx : offsets.getD j 0 - row = (offsets.getD j 0 - (row + 1)) + 1 := by omega
      rw [hidx]
      show (expandRows vals offsets dflt (row + 1) offIdx m).getD
          (offsets.getD j 0 - (row + 1)) none = vals.getD j none
      refine ih (row + 1) offIdx ?_ hj1 (by omega)
      intro k hk1 hk2
      by_cases hke : k = offIdx
      · subst hke; omega
      · have := sorted_getD_lt offsets offIdx k hsorted (by omega) hk2
        omega

/-- Full behaviour of one `expand_*` helper under the claim's
preconditions. -/
theorem expand_generic_spec {α : Type} (vals : List (Option α)) (P : List Nat)
    (dflt : α) (n : Nat)
    (hsorted : List.Pairwise (· < ·) P) (hlt : ∀ p ∈ P, p < n) :
    (expand_generic vals P dflt n).length = n ∧
      (∀ j, j < P.length →
        (expand_generic vals P dflt n).getD (P.getD j 0) none = vals.getD j none) ∧
      (∀ i, i < n → i ∉ P →
        (expand_generic vals P dflt n).getD i none = some dflt) := by
  refine ⟨expandRows_length vals P dflt 0 0 n, ?_, ?_⟩
  · intro j hj
    have hjv : P.getD j 0 ∈ P := by
      rw [getD_eq_get P j hj]
      exact List.getElem_mem hj
    have := expandRows_getD_hit vals P dflt 0 0 n j hsorted
      (by intro k _ _; omega) (by omega) hj (by simpa using hlt _ hjv)
    simpa using this
  · intro i hi hmem
    have := expandRows_getD_miss vals P dflt 0 0 n i hi (by simpa using hmem)
    simpa using this

/-- C2: for every supported sparse array of length `|P|`, strictly
increasing positions `P` all below `n`, `expand_sparse_array` succeeds
with an array of `n` rows in which row `P[j]` equals sparse row `j`
(null included) and every row off `P` is the non-null type default. -/
theorem expand_sparse_array_correct (arr : ArrowArray) (P : List Nat) (n : Nat)
    (hsup : arr.isSupported = true)
    (hlen : arr.len = P.length)
    (hsorted : List.Pairwise (· < ·) P)
    (hlt : ∀ p ∈ P, p < n) :
    ∃ out, expand_sparse_array arr P n = Except.ok out ∧
      out.len = n ∧
      (∀ j, j < P.length → arrGet out (P.getD j 0) = arrGet arr j) ∧
      (∀ i, i < n → i ∉ P → arrGet out i = some arr.defaultRow) := by
  cases arr with
  | prim t vals =>
    obtain ⟨h1, h2, h3⟩ := expand_generic_spec vals P 0 n hsorted hlt
    refine ⟨.prim t (expand_generic vals P 0 n), ?_, h1, ?_, ?_⟩
    · rw [expand_sparse_array, if_neg (by simpa using hlen)]
    · intro j hj
      show (Option.map _ _) = (Option.map _ _)
      rw [h2 j hj]
    · intro i hi hmem
      show (Option.map _ _) = _
      rw [h3 i hi hmem]
      rfl
  | utf8 large vals =>
    obtain ⟨h1, h2, h3⟩ := expand_generic_spec vals P "" n hsorted hlt
    refine ⟨.utf8 large (expand_generic vals P "" n), ?_, h1, ?_, ?_⟩
    · rw [expand_sparse_array, if_neg (by simpa using hlen)]
    · intro j hj
      show (Option.map _ _) = (Option.map _ _)
      rw [h2 j hj]
    · intro i hi hmem
      show (Option.map _ _) = _
      rw [h3 i hi hmem]
      rfl
  | binary large vals =>
    obtain ⟨h1, h2, h3⟩ := expand_generic_spec vals P [] n hsorted hlt
    refine ⟨.binary large (expand_generic vals P [] n), ?_, h1, ?_, ?_⟩
    · rw [expand_sparse_array, if_neg (by simpa using hlen)]
    · intro j hj
      show (Option.map _ _) = (Option.map _ _)
      rw [h2 j hj]
    · intro i hi hmem
      show (Option.map _ _) = _
      rw [h3 i hi hmem]
      rfl
  | boolean vals =>
    obtain ⟨h1, h2, h3⟩ := expand_generic_spec vals P false n hsorted hlt
    refine ⟨.boolean (expand_generic vals P false n), ?_, h1, ?_, ?_⟩
    · rw [expand_sparse_array, if_neg (by simpa using hlen)]
    · intro j hj
      show (Option.map _ _) = (Option.map _ _)
      rw [h2 j hj]
    · intro i hi hmem
      show (Option.map _ _) = _
      rw [h3 i hi hmem]
      rfl
  | fixedSizeBinary size vals =>
    obtain ⟨h1, h2, h3⟩ := expand_generic_spec vals P (List.replicate size 0) n hsorted hlt
    refine ⟨.fixedSizeBinary size (expand_generic vals P (List.replicate size 0) n),
      ?_, h1, ?_, ?_⟩
    · rw [expand_sparse_array, if_neg (by simpa using hlen)]
    · intro j hj
      show (Option.map _ _) = (Option.map _ _)
      rw [h2 j hj]
    · intro i hi hmem
      show (Option.map _ _) = _
      rw [h3 i hi hmem]
      rfl
  | unsupported name k =>
    simp [ArrowArray.isSupported] at hsup

theorem expand_sparse_array_correct_witness :
    ((ArrowArray.prim .int64 [some 10, none, some 30]).isSupported = true ∧
        (ArrowArray.prim .int64 [some 10, none, some 30]).len = [1, 3, 4].length ∧
        List.Pairwise (· < ·) [1, 3, 4] ∧ (∀ p ∈ ([1, 3, 4] : List Nat), p < 6)) ∧
      ∃ out,
        expand_sparse_array (ArrowArray.prim .int64 [some 10, none, some 30]) [1, 3, 4] 6 =
            Except.ok out ∧
          out.len = 6 ∧
          (∀ j, j < ([1, 3, 4] : List Nat).length →
            arrGet out (([1, 3, 4] : List Nat).getD j 0) =
              arrGet (ArrowArray.prim .int64 [some 10, none, some 30]) j) ∧
          (∀ i, i < 6 → i ∉ ([1, 3, 4] : List Nat) →
            arrGet out i = some (ArrowArray.prim .int64 [some 10, none, some 30]).defaultRow) :=
  ⟨⟨by decide, by decide, by decide, by decide⟩,
    expand_sparse_array_correct (ArrowArray.prim .int64 [some 10, none, some 30]) [1, 3, 4] 6
      (by decide) (by decide) (by decide) (by decide)⟩

end ClickHouseArrow
